import Mathlib

/-!
Verification development for the hackathon-sniffer ingestion pipeline.

The definitions below are a shallow embedding of the TypeScript sources:
`src/backend/backend/src/ingestion/utils/deduplication.ts`
(`DeduplicationService`), the HTTP fetch layer (`HttpClient`), the adapter
base class (`BaseAdapter`), the Devpost/MLH adapters' date parsing, and the
ingestion scheduler.  JS numbers are modelled as exact rationals (`ℚ`),
JS timestamps (`new Date(s).getTime()`) as an explicit parse function
`String → ℤ` passed as a parameter, strings as Lean `String`s, and
`undefined`-able fields as `Option`s.
-/

/-- The canonical record shape produced by adapters
(`NormalizedHackathonSchema` in `types/ingestion.ts`).  Optional zod fields
become `Option`; `source` stays a `String` (the schema restricts it to
`devpost`/`mlh`/`eventbrite`, which theorems take as a hypothesis where it
matters). -/
structure NormalizedHackathon where
  title : String
  description : Option String
  start_date : String
  end_date : String
  registration_deadline : Option String
  location : String
  is_online : Bool
  website_url : Option String
  registration_url : Option String
  source : String
deriving DecidableEq

instance : Inhabited NormalizedHackathon :=
  ⟨⟨"", none, "", "", none, "", false, none, none, ""⟩⟩

/-- JS truthiness of an optional string field: `undefined` and `""` are
falsy, every other string is truthy. -/
def jsTruthy : Option String → Bool
  | none => false
  | some s => !(s == "")


/-- JS whitespace for `trim` (the characters that occur here). -/
def jsIsWS (c : Char) : Bool := c = ' ' || c = '\t' || c = '\n' || c = '\r'

/-- `String.prototype.trim` on the character-list model of strings. -/
def jsTrim (s : String) : String :=
  ⟨((s.data.dropWhile jsIsWS).reverse.dropWhile jsIsWS).reverse⟩

/-- `String.prototype.toLowerCase` (ASCII range, which covers everything
the source compares). -/
def jsToLower (s : String) : String := ⟨s.data.map Char.toLower⟩

/-- `s.toLowerCase().trim()`, the normalization applied before comparing
strings. -/
def jsLowerTrim (s : String) : String := jsTrim (jsToLower s)

/-! ## Levenshtein distance (`DeduplicationService.stringSimilarity`)

The source fills a `(|s2|+1) × (|s1|+1)` matrix with
`m[0][i] = i`, `m[j][0] = j` and
`m[j][i] = min(m[j][i-1]+1, m[j-1][i]+1, m[j-1][i-1]+indicator)`
where `indicator` is `0` iff `s1[i-1] === s2[j-1]`, and reads off
`m[s2.length][s1.length]`.  `levRow`/`levDistance` below compute the rows
of that matrix in the same outer-`j` / inner-`i` order; `levEntry i j` is
the matrix entry `m[j][i]` written as a recurrence on indices, and
`levDistance_eq_levEntry` bridges the two. -/

/-- Matrix entry `m[j][i]` of the source's DP table for fixed strings
`s1`, `s2` (as character lists): the standard Levenshtein recurrence. -/
def levEntry (s1 s2 : List Char) : Nat → Nat → Nat
  | 0, j => j
  | i + 1, 0 => i + 1
  | i + 1, j + 1 =>
    min (min (levEntry s1 s2 i (j + 1) + 1) (levEntry s1 s2 (i + 1) j + 1))
      (levEntry s1 s2 i j + if s1.get? i = s2.get? j then 0 else 1)
termination_by i j => i + j

/-- Inner loop of the matrix fill: given the remaining characters of `s1`,
the previous row starting at the diagonal entry, and the entry just
computed to the left, produce the rest of the new row. -/
def levRowNext (c2 : Char) : List Char → List Nat → Nat → List Nat
  | [], _, _ => []
  | x :: xs, diag :: rest, left =>
    let cur := min (min (left + 1) (rest.headD 0 + 1))
      (diag + if x = c2 then 0 else 1)
    cur :: levRowNext c2 xs rest cur
  | _ :: _, [], _ => []

/-- One outer-loop step: compute row `j+1` of the matrix from row `j`
and the character `s2[j]`. -/
def levRow (s1 : List Char) (c2 : Char) (prev : List Nat) : List Nat :=
  (prev.headD 0 + 1) :: levRowNext c2 s1 prev (prev.headD 0 + 1)

/-- The matrix value `m[s2.length][s1.length]` read off by the source:
fold the row update over `s2` starting from row `0 = [0..|s1|]` and take
the last entry of the final row. -/
def levDistance (s1 s2 : List Char) : Nat :=
  (s2.foldl (fun row c2 => levRow s1 c2 row) (List.range (s1.length + 1))).getLastD 0

theorem levEntry_zero_left (s1 s2 : List Char) (j : Nat) :
    levEntry s1 s2 0 j = j := by
  simp [levEntry]

theorem levEntry_zero_right (s1 s2 : List Char) (i : Nat) :
    levEntry s1 s2 i 0 = i := by
  cases i <;> simp [levEntry]

theorem levEntry_succ_succ (s1 s2 : List Char) (i j : Nat) :
    levEntry s1 s2 (i + 1) (j + 1) =
      min (min (levEntry s1 s2 i (j + 1) + 1) (levEntry s1 s2 (i + 1) j + 1))
        (levEntry s1 s2 i j + if s1.get? i = s2.get? j then 0 else 1) := by
  simp [levEntry]

/-- `levEntry s1 s2 i j` only looks at the first `j` characters of `s2`:
appending to `s2` does not change entries with `j ≤ |s2|`. -/
theorem levEntry_append (s1 s2 t : List Char) :
    ∀ n i j, i + j ≤ n → j ≤ s2.length →
      levEntry s1 (s2 ++ t) i j = levEntry s1 s2 i j := by
  intro n
  induction n with
  | zero =>
    intro i j hn _
    obtain ⟨rfl, rfl⟩ : i = 0 ∧ j = 0 := by omega
    simp [levEntry]
  | succ n ih =>
    intro i j hn hj
    match i, j with
    | 0, j => simp [levEntry_zero_left]
    | i + 1, 0 => simp [levEntry_zero_right]
    | i + 1, j + 1 =>
      rw [levEntry_succ_succ, levEntry_succ_succ]
      have h1 : i + (j + 1) ≤ n := by omega
      have h2 : (i + 1) + j ≤ n := by omega
      have h3 : i + j ≤ n := by omega
      have hj' : j ≤ s2.length := by omega
      rw [ih i (j + 1) h1 hj, ih (i + 1) j h2 hj', ih i j h3 hj']
      have hget : (s2 ++ t).get? j = s2.get? j := by
        rw [List.get?_append]
        omega
      rw [hget]

/-- The Levenshtein matrix is symmetric under swapping the two strings
together with the two indices. -/
theorem levEntry_comm (s1 s2 : List Char) :
    ∀ n i j, i + j ≤ n → levEntry s1 s2 i j = levEntry s2 s1 j i := by
  intro n
  induction n with
  | zero =>
    intro i j hn
    obtain ⟨rfl, rfl⟩ : i = 0 ∧ j = 0 := by omega
    simp [levEntry]
  | succ n ih =>
    intro i j hn
    match i, j with
    | 0, j => simp [levEntry_zero_left, levEntry_zero_right]
    | i + 1, 0 => simp [levEntry_zero_left, levEntry_zero_right]
    | i + 1, j + 1 =>
      rw [levEntry_succ_succ, levEntry_succ_succ]
      have h1 : i + (j + 1) ≤ n := by omega
      have h2 : (i + 1) + j ≤ n := by omega
      have h3 : i + j ≤ n := by omega
      rw [ih i (j + 1) h1, ih (i + 1) j h2, ih i j h3]
      have hind : (if s1.get? i = s2.get? j then 0 else 1) =
          (if s2.get? j = s1.get? i then (0 : Nat) else 1) := by
        simp [eq_comm]
      rw [hind, min_comm (levEntry s2 s1 (j + 1) i + 1) (levEntry s2 s1 j (i + 1) + 1)]

/-- Each matrix entry is bounded by the larger index. -/
theorem levEntry_le_max (s1 s2 : List Char) :
    ∀ n i j, i + j ≤ n → levEntry s1 s2 i j ≤ max i j := by
  intro n
  induction n with
  | zero =>
    intro i j hn
    obtain ⟨rfl, rfl⟩ : i = 0 ∧ j = 0 := by omega
    simp [levEntry]
  | succ n ih =>
    intro i j hn
    match i, j with
    | 0, j => simp [levEntry_zero_left]
    | i + 1, 0 => simp [levEntry_zero_right]
    | i + 1, j + 1 =>
      rw [levEntry_succ_succ]
      have h3 : i + j ≤ n := by omega
      have := ih i j h3
      have hδ : (if s1.get? i = s2.get? j then 0 else 1) ≤ 1 := by
        split <;> omega
      calc min (min (levEntry s1 s2 i (j + 1) + 1) (levEntry s1 s2 (i + 1) j + 1))
            (levEntry s1 s2 i j + if s1.get? i = s2.get? j then 0 else 1)
          ≤ levEntry s1 s2 i j + if s1.get? i = s2.get? j then 0 else 1 :=
            min_le_right _ _
        _ ≤ max i j + 1 := by omega
        _ ≤ max (i + 1) (j + 1) := by omega

/-- The diagonal of the matrix for a string against itself is zero. -/
theorem levEntry_self (s : List Char) : ∀ i, levEntry s s i i = 0 := by
  intro i
  induction i with
  | zero => simp [levEntry]
  | succ i ih =>
    rw [levEntry_succ_succ, ih]
    simp

/-- Correctness of the inner row loop against the index recurrence:
walking the tail `s1.drop k` with the previous row from position `k`
produces the new row's entries from position `k+1`. -/
theorem levRowNext_spec (s1 s2 : List Char) (c : Char) :
    ∀ (l : List Char) (k : Nat), l = s1.drop k →
      levRowNext c l
          ((List.range' k (l.length + 1)).map (fun i => levEntry s1 s2 i s2.length))
          (levEntry s1 (s2 ++ [c]) k (s2.length + 1)) =
        (List.range' (k + 1) l.length).map
          (fun i => levEntry s1 (s2 ++ [c]) i (s2.length + 1)) := by
  intro l
  induction l with
  | nil => intro k _; simp [levRowNext]
  | cons x xs ih =>
    intro k hk
    have hx : s1.get? k = some x := by
      have : (s1.drop k).get? 0 = some x := by rw [← hk]; rfl
      rwa [List.get?_drop, Nat.add_zero] at this
    have hxs : xs = s1.drop (k + 1) := by
      have : (s1.drop k).drop 1 = xs := by rw [← hk]; rfl
      rw [← this, List.drop_drop]
    have hr1 : List.range' k ((x :: xs).length + 1)
        = k :: (k + 1) :: List.range' (k + 2) xs.length := by
      simp [List.length_cons, List.range'_succ]
    have hr2 : List.range' (k + 1) (x :: xs).length
        = (k + 1) :: List.range' (k + 2) xs.length := by
      simp [List.length_cons, List.range'_succ]
    rw [hr1, hr2, List.map_cons, List.map_cons, List.map_cons]
    simp only [levRowNext, List.headD_cons]
    have hcur : min (min (levEntry s1 (s2 ++ [c]) k (s2.length + 1) + 1)
          (levEntry s1 s2 (k + 1) s2.length + 1))
          (levEntry s1 s2 k s2.length + if x = c then 0 else 1) =
        levEntry s1 (s2 ++ [c]) (k + 1) (s2.length + 1) := by
      rw [levEntry_succ_succ]
      have e1 : levEntry s1 (s2 ++ [c]) (k + 1) s2.length =
          levEntry s1 s2 (k + 1) s2.length :=
        levEntry_append s1 s2 [c] ((k + 1) + s2.length) (k + 1) s2.length le_rfl le_rfl
      have e2 : levEntry s1 (s2 ++ [c]) k s2.length = levEntry s1 s2 k s2.length :=
        levEntry_append s1 s2 [c] (k + s2.length) k s2.length le_rfl le_rfl
      have e3 : (s2 ++ [c]).get? s2.length = some c := List.get?_concat_length s2 c
      rw [e1, e2, e3, hx]
      have hd : (if some x = some c then (0 : Nat) else 1) = if x = c then 0 else 1 := by
        simp
      rw [hd]
    rw [hcur]
    congr 1
    have htail := ih (k + 1) hxs
    have hr3 : List.range' (k + 1) (xs.length + 1)
        = (k + 1) :: List.range' (k + 2) xs.length := by
      simp [List.range'_succ]
    rw [hr3, List.map_cons] at htail
    exact htail

/-- Folding the row update over `s2` yields exactly the `levEntry` row at
`j = |s2|`. -/
theorem levRow_fold (s1 : List Char) : ∀ (s2 : List Char),
    s2.foldl (fun row c2 => levRow s1 c2 row) (List.range (s1.length + 1)) =
      (List.range (s1.length + 1)).map (fun i => levEntry s1 s2 i s2.length) := by
  intro s2
  induction s2 using List.reverseRecOn with
  | nil =>
    simp [levEntry_zero_right, List.map_id']
  | append_singleton s2 c ih =>
    rw [List.foldl_append, List.foldl_cons, List.foldl_nil, ih]
    simp only [List.length_append, List.length_singleton]
    have hrange : List.range (s1.length + 1) = 0 :: List.range' 1 s1.length := by
      rw [List.range_eq_range', List.range'_succ]
    rw [hrange, List.map_cons, List.map_cons]
    simp only [levRow, List.headD_cons, levEntry_zero_left]
    have hspec := levRowNext_spec s1 s2 c s1 0 rfl
    have hr0 : List.range' 0 (s1.length + 1) = 0 :: List.range' 1 s1.length := by
      rw [List.range'_succ]
    rw [hr0, List.map_cons, levEntry_zero_left, levEntry_zero_left] at hspec
    rw [hspec]

/-- Bridge: the value the source reads out of the DP matrix is the
recurrence value at the full lengths. -/
theorem levDistance_eq_levEntry (s1 s2 : List Char) :
    levDistance s1 s2 = levEntry s1 s2 s1.length s2.length := by
  unfold levDistance
  rw [levRow_fold]
  rw [List.range_succ, List.map_append, List.map_cons, List.map_nil]
  rw [List.getLastD_concat]

theorem levDistance_comm (s1 s2 : List Char) :
    levDistance s1 s2 = levDistance s2 s1 := by
  rw [levDistance_eq_levEntry, levDistance_eq_levEntry]
  exact levEntry_comm s1 s2 (s1.length + s2.length) s1.length s2.length le_rfl

theorem levDistance_le_max (s1 s2 : List Char) :
    levDistance s1 s2 ≤ max s1.length s2.length := by
  rw [levDistance_eq_levEntry]
  exact levEntry_le_max s1 s2 (s1.length + s2.length) s1.length s2.length le_rfl

theorem levDistance_self (s : List Char) : levDistance s s = 0 := by
  rw [levDistance_eq_levEntry]
  exact levEntry_self s s.length

/-! ## Similarity scoring (`DeduplicationService`) -/

/-- `DeduplicationService.stringSimilarity`: lowercase and trim both
strings, return 1 on equality, 0 if either is empty, otherwise
`(maxLength - distance) / maxLength` from the DP matrix. -/
def stringSimilarity (str1 str2 : String) : ℚ :=
  let s1 := (jsLowerTrim str1)
  let s2 := (jsLowerTrim str2)
  if s1 = s2 then 1
  else if s1.length = 0 ∨ s2.length = 0 then 0
  else
    let maxLength := max s1.length s2.length
    ((maxLength - levDistance s1.toList s2.toList : Nat) : ℚ) / maxLength

/-- The spec's phrasing of edit-distance similarity:
`1 - Levenshtein distance / max length` on the lowercased, trimmed
strings (in `ℚ`, division by zero is zero). -/
def editSimilarity (a b : String) : ℚ :=
  let s1 := (jsLowerTrim a)
  let s2 := (jsLowerTrim b)
  1 - (levDistance s1.toList s2.toList : ℚ) / max s1.length s2.length

/-- Milliseconds per day, the divisor `1000 * 60 * 60 * 24` in
`calculateSimilarity`. -/
def msPerDay : ℚ := 1000 * 60 * 60 * 24

/-- `DeduplicationService.calculateSimilarity`.  `pd` models
`new Date(s).getTime()` (milliseconds).  The source accumulates
`score`/`factors` and returns `score / factors` with
`factors = 0.4 + 0.3 + 0.2 + 0.1`. -/
def calculateSimilarity (pd : String → Int) (h1 h2 : NormalizedHackathon) : ℚ :=
  let titleSimilarity := stringSimilarity h1.title h2.title
  let dateScore : ℚ :=
    if h1.start_date = h2.start_date then 0.3
    else if |((pd h1.start_date : ℚ)) - ((pd h2.start_date : ℚ))| / msPerDay ≤ 3 then 0.15
    else 0
  let locationSimilarity := stringSimilarity h1.location h2.location
  let onlineScore : ℚ := if h1.is_online = h2.is_online then 0.1 else 0
  (titleSimilarity * 0.4 + dateScore + locationSimilarity * 0.2 + onlineScore) /
    (0.4 + 0.3 + 0.2 + 0.1)

/-- The claim's phrasing of the weighted similarity score: a plain
weighted sum with the 3-day window written as an absolute-difference
bound in milliseconds. -/
def claimSimilarity (pd : String → Int) (h1 h2 : NormalizedHackathon) : ℚ :=
  0.4 * editSimilarity h1.title h2.title +
    (if h1.start_date = h2.start_date then 0.3
     else if |((pd h1.start_date : ℚ)) - ((pd h2.start_date : ℚ))| ≤ 3 * msPerDay then 0.15
     else 0) +
    0.2 * editSimilarity h1.location h2.location +
    (if h1.is_online = h2.is_online then 0.1 else 0)

/-- `DeduplicationService.isDuplicate` with its default threshold 0.85. -/
def isDuplicate (pd : String → Int) (h1 h2 : NormalizedHackathon)
    (threshold : ℚ := 0.85) : Bool :=
  decide (calculateSimilarity pd h1 h2 ≥ threshold)

theorem string_length_toList (s : String) : s.toList.length = s.length := rfl

theorem string_eq_empty_of_length_zero {s : String} (h : s.length = 0) : s = "" := by
  cases s with
  | mk data =>
    have hd : data.length = 0 := h
    have hdn : data = [] := List.length_eq_zero.mp hd
    simp [hdn]
    try rfl

theorem stringSimilarity_eq_editSimilarity (a b : String) :
    stringSimilarity a b = editSimilarity a b := by
  simp only [stringSimilarity, editSimilarity]
  set s1 := (jsLowerTrim a) with hs1
  set s2 := (jsLowerTrim b) with hs2
  by_cases heq : s1 = s2
  · rw [if_pos heq, heq, levDistance_self]
    simp
  · rw [if_neg heq]
    by_cases hzero : s1.length = 0 ∨ s2.length = 0
    · rw [if_pos hzero]
      rcases hzero with hz | hz
      · have h1nil : s1.toList = [] := by
          have hl := string_length_toList s1
          rw [hz] at hl
          exact List.length_eq_zero.mp hl
        have h2pos : s2.length ≠ 0 := by
          intro hz2
          exact heq ((string_eq_empty_of_length_zero hz).trans
            (string_eq_empty_of_length_zero hz2).symm)
        rw [h1nil, levDistance_eq_levEntry, List.length_nil, levEntry_zero_left,
          string_length_toList, hz]
        rw [Nat.max_eq_right (Nat.zero_le _)]
        rw [div_self (by exact_mod_cast h2pos)]
        ring
      · have h2nil : s2.toList = [] := by
          have hl := string_length_toList s2
          rw [hz] at hl
          exact List.length_eq_zero.mp hl
        have h1pos : s1.length ≠ 0 := by
          intro hz1
          exact heq ((string_eq_empty_of_length_zero hz1).trans
            (string_eq_empty_of_length_zero hz).symm)
        rw [h2nil, levDistance_eq_levEntry, List.length_nil, levEntry_zero_right,
          string_length_toList, hz]
        rw [Nat.max_eq_left (Nat.zero_le _)]
        rw [div_self (by exact_mod_cast h1pos)]
        ring
    · rw [if_neg hzero]
      push_neg at hzero
      have hd : levDistance s1.toList s2.toList ≤ max s1.length s2.length := by
        have hb := levDistance_le_max s1.toList s2.toList
        rwa [string_length_toList, string_length_toList] at hb
      have hmpos : (0 : ℚ) < ((max s1.length s2.length : Nat) : ℚ) := by
        have hp : 0 < max s1.length s2.length := by omega
        exact_mod_cast hp
      rw [Nat.cast_sub hd, sub_div, div_self (ne_of_gt hmpos)]

theorem stringSimilarity_comm (a b : String) :
    stringSimilarity a b = stringSimilarity b a := by
  simp only [stringSimilarity]
  by_cases heq : (jsLowerTrim a) = (jsLowerTrim b)
  · simp only [if_pos heq, if_pos heq.symm]
  · have heq' : ¬(jsLowerTrim b) = (jsLowerTrim a) := fun h => heq h.symm
    simp only [if_neg heq, if_neg heq']
    by_cases hzero : (jsLowerTrim a).length = 0 ∨ (jsLowerTrim b).length = 0
    · have hzero' : (jsLowerTrim b).length = 0 ∨ (jsLowerTrim a).length = 0 := hzero.symm
      simp only [if_pos hzero, if_pos hzero']
    · have hzero' : ¬((jsLowerTrim b).length = 0 ∨ (jsLowerTrim a).length = 0) :=
        fun h => hzero h.symm
      simp only [if_neg hzero, if_neg hzero']
      rw [levDistance_comm, Nat.max_comm]

theorem stringSimilarity_nonneg (a b : String) : 0 ≤ stringSimilarity a b := by
  simp only [stringSimilarity]
  split
  · norm_num
  · split
    · norm_num
    · positivity

theorem stringSimilarity_le_one (a b : String) : stringSimilarity a b ≤ 1 := by
  simp only [stringSimilarity]
  split
  · norm_num
  · split
    · norm_num
    · set s1 := (jsLowerTrim a)
      set s2 := (jsLowerTrim b)
      rename_i hne hzero
      push_neg at hzero
      have hmpos : (0 : ℚ) < ((max s1.length s2.length : Nat) : ℚ) := by
        have hp : 0 < max s1.length s2.length := by omega
        exact_mod_cast hp
      rw [div_le_one hmpos]
      have hsub : (max s1.length s2.length - levDistance s1.toList s2.toList : Nat)
          ≤ max s1.length s2.length := Nat.sub_le _ _
      exact_mod_cast hsub

theorem calculateSimilarity_eq_claim (pd : String → Int) (h1 h2 : NormalizedHackathon) :
    calculateSimilarity pd h1 h2 = claimSimilarity pd h1 h2 := by
  simp only [calculateSimilarity, claimSimilarity, stringSimilarity_eq_editSimilarity]
  have hms : (0 : ℚ) < msPerDay := by norm_num [msPerDay]
  have hcond : (|((pd h1.start_date : ℚ)) - ((pd h2.start_date : ℚ))| / msPerDay ≤ 3)
      = (|((pd h1.start_date : ℚ)) - ((pd h2.start_date : ℚ))| ≤ 3 * msPerDay) := by
    rw [eq_iff_iff, div_le_iff hms, mul_comm]
  simp only [hcond]
  have hfac : (0.4 + 0.3 + 0.2 + 0.1 : ℚ) = 1 := by norm_num
  rw [hfac, div_one]
  ring

theorem calculateSimilarity_comm (pd : String → Int) (h1 h2 : NormalizedHackathon) :
    calculateSimilarity pd h1 h2 = calculateSimilarity pd h2 h1 := by
  simp only [calculateSimilarity]
  rw [stringSimilarity_comm h1.title h2.title,
    stringSimilarity_comm h1.location h2.location]
  have hdate : (h1.start_date = h2.start_date) = (h2.start_date = h1.start_date) := by
    rw [eq_iff_iff]; exact eq_comm
  have habs : |((pd h1.start_date : ℚ)) - ((pd h2.start_date : ℚ))|
      = |((pd h2.start_date : ℚ)) - ((pd h1.start_date : ℚ))| := abs_sub_comm _ _
  have honline : (h1.is_online = h2.is_online) = (h2.is_online = h1.is_online) := by
    rw [eq_iff_iff]; exact eq_comm
  simp only [hdate, habs, honline]

theorem calculateSimilarity_nonneg (pd : String → Int) (h1 h2 : NormalizedHackathon) :
    0 ≤ calculateSimilarity pd h1 h2 := by
  simp only [calculateSimilarity]
  have t1 := stringSimilarity_nonneg h1.title h2.title
  have t2 := stringSimilarity_nonneg h1.location h2.location
  have hd : (0 : ℚ) ≤ (if h1.start_date = h2.start_date then (0.3 : ℚ)
      else if |((pd h1.start_date : ℚ)) - ((pd h2.start_date : ℚ))| / msPerDay ≤ 3
      then 0.15 else 0) := by
    split
    · norm_num
    · split <;> norm_num
  have ho : (0 : ℚ) ≤ (if h1.is_online = h2.is_online then (0.1 : ℚ) else 0) := by
    split <;> norm_num
  have hfac : (0.4 + 0.3 + 0.2 + 0.1 : ℚ) = 1 := by norm_num
  rw [hfac, div_one]
  nlinarith

theorem calculateSimilarity_le_one (pd : String → Int) (h1 h2 : NormalizedHackathon) :
    calculateSimilarity pd h1 h2 ≤ 1 := by
  simp only [calculateSimilarity]
  have t1 := stringSimilarity_le_one h1.title h2.title
  have t2 := stringSimilarity_le_one h1.location h2.location
  have t1n := stringSimilarity_nonneg h1.title h2.title
  have t2n := stringSimilarity_nonneg h1.location h2.location
  have hd : (if h1.start_date = h2.start_date then (0.3 : ℚ)
      else if |((pd h1.start_date : ℚ)) - ((pd h2.start_date : ℚ))| / msPerDay ≤ 3
      then 0.15 else 0) ≤ 0.3 := by
    split
    · norm_num
    · split <;> norm_num
  have ho : (if h1.is_online = h2.is_online then (0.1 : ℚ) else 0) ≤ 0.1 := by
    split <;> norm_num
  have hfac : (0.4 + 0.3 + 0.2 + 0.1 : ℚ) = 1 := by norm_num
  rw [hfac, div_one]
  nlinarith

/-- C1: `calculateSimilarity` is the weighted sum of the claim — 0.4 times
edit-distance similarity of the lowercased trimmed titles, plus 0.3 for an
exact start-date match (0.15 when the start dates are within 3 days, else
0), plus 0.2 times edit-distance similarity of the locations, plus 0.1 when
the online flags agree; the score lies in `[0, 1]`; and `isDuplicate` holds
iff the score reaches the threshold, whose default is 0.85. -/
theorem C1_calculateSimilarity_weighted_sum :
    ∀ (pd : String → Int) (h1 h2 : NormalizedHackathon) (t : ℚ),
      calculateSimilarity pd h1 h2 = claimSimilarity pd h1 h2 ∧
      0 ≤ calculateSimilarity pd h1 h2 ∧
      calculateSimilarity pd h1 h2 ≤ 1 ∧
      (isDuplicate pd h1 h2 t = true ↔ calculateSimilarity pd h1 h2 ≥ t) ∧
      isDuplicate pd h1 h2 = isDuplicate pd h1 h2 0.85 := by
  intro pd h1 h2 t
  refine ⟨calculateSimilarity_eq_claim pd h1 h2, calculateSimilarity_nonneg pd h1 h2,
    calculateSimilarity_le_one pd h1 h2, ?_, rfl⟩
  simp only [isDuplicate]
  exact decide_eq_true_iff

/-- C9: the similarity score is symmetric in its two record arguments,
for every parse function for dates. -/
theorem C9_calculateSimilarity_symm :
    ∀ (pd : String → Int) (h1 h2 : NormalizedHackathon),
      calculateSimilarity pd h1 h2 = calculateSimilarity pd h2 h1 := by
  intro pd h1 h2
  exact calculateSimilarity_comm pd h1 h2

/-! ## URL canonicalization (`DeduplicationService.canonicalizeUrl`)

The JS `URL` builtin is modelled by `parseUrl`/`renderUrl` below on the
shape `scheme://host[:port][/path][?query][#fragment]`; construction
throws (here: returns `none`) when no `://` separator, scheme or host is
present.  `canonicalizeUrl` then mirrors the source's try/catch body:
delete tracking parameters one by one, strip one leading `www.` from the
hostname, strip one trailing `/` from the path, and serialize. -/

/-- First occurrence split: `splitOnFirst sep l = some (pre, post)` when
`l = pre ++ sep ++ post` at the earliest position, else `none`. -/
def splitOnFirst (sep : List Char) : List Char → Option (List Char × List Char)
  | [] => if sep.isEmpty then some ([], []) else none
  | c :: cs =>
    if sep.isPrefixOf (c :: cs) then some ([], (c :: cs).drop sep.length)
    else
      match splitOnFirst sep cs with
      | some (pre, post) => some (c :: pre, post)
      | none => none

/-- Split a character list at every occurrence of `sep` (keeping empty
pieces), as JS `String.prototype.split` does. -/
def splitAllChar (sep : Char) : List Char → List (List Char)
  | [] => [[]]
  | c :: cs =>
    match splitAllChar sep cs with
    | [] => if c = sep then [[], []] else [[c]]
    | piece :: rest =>
      if c = sep then [] :: piece :: rest else (c :: piece) :: rest

/-- A parsed URL object: the fields of the JS `URL` instance that
`canonicalizeUrl` touches. -/
structure UrlObj where
  scheme : String
  hostname : String
  port : String
  pathname : String
  searchParams : List (String × String)
  fragment : String
deriving DecidableEq

/-- Query-string parsing into `URLSearchParams` entries: split on `&`,
drop empty pieces, split each piece at the first `=`. -/
def parseQuery (q : List Char) : List (String × String) :=
  (splitAllChar '&' q).filterMap (fun kv =>
    if kv.isEmpty then none
    else
      match splitOnFirst ['='] kv with
      | some (k, v) => some (⟨k⟩, ⟨v⟩)
      | none => some (⟨kv⟩, ""))

/-- Model of the `new URL(url)` constructor on the URL shapes the crawler
handles: requires a non-empty all-alphanumeric scheme before `://` and a
non-empty host; splits off `[:port]`, path, `?query` and `#fragment`. -/
def parseUrl (s : String) : Option UrlObj :=
  match splitOnFirst "://".data s.data with
  | none => none
  | some (schemeCs, rest) =>
    if schemeCs.isEmpty then none
    else if !(schemeCs.all fun c => c.isAlphanum) then none
    else
      let authority := rest.takeWhile fun c => c ≠ '/' && c ≠ '?' && c ≠ '#'
      let tail := rest.dropWhile fun c => c ≠ '/' && c ≠ '?' && c ≠ '#'
      if authority.isEmpty then none
      else
        let hostPort :=
          match splitOnFirst [':'] authority with
          | some (h, p) => (h, p)
          | none => (authority, [])
        if hostPort.1.isEmpty then none
        else
          let beforeFrag :=
            match splitOnFirst ['#'] tail with
            | some (b, f) => (b, f)
            | none => (tail, [])
          let pathQuery :=
            match splitOnFirst ['?'] beforeFrag.1 with
            | some (p, q) => (p, q)
            | none => (beforeFrag.1, [])
          some { scheme := ⟨schemeCs⟩, hostname := ⟨hostPort.1⟩, port := ⟨hostPort.2⟩,
                 pathname := ⟨pathQuery.1⟩, searchParams := parseQuery pathQuery.2,
                 fragment := ⟨beforeFrag.2⟩ }

/-- Serialize one query entry as `key=value`. -/
def renderParam (kv : String × String) : String := kv.1 ++ "=" ++ kv.2

/-- Join serialized query entries with `&`. -/
def renderQuery : List (String × String) → String
  | [] => ""
  | [kv] => renderParam kv
  | kv :: rest => renderParam kv ++ "&" ++ renderQuery rest

/-- Model of `urlObj.toString()`. -/
def renderUrl (u : UrlObj) : String :=
  u.scheme ++ "://" ++ u.hostname ++ (if u.port = "" then "" else ":" ++ u.port) ++
    u.pathname ++
    (if u.searchParams.isEmpty then "" else "?" ++ renderQuery u.searchParams) ++
    (if u.fragment = "" then "" else "#" ++ u.fragment)

/-- The tracking parameter names deleted by `canonicalizeUrl`. -/
def trackingParams : List String :=
  ["utm_source", "utm_medium", "utm_campaign", "utm_term", "utm_content",
   "fbclid", "gclid", "ref", "source", "campaign"]

/-- `URLSearchParams.delete(name)`: remove every entry with that name. -/
def deleteParam (u : UrlObj) (param : String) : UrlObj :=
  { u with searchParams := u.searchParams.filter fun kv => kv.1 ≠ param }

/-- `hostname.replace(/^www\./, '')`: strip one leading `www.`. -/
def replaceLeadingWww (h : String) : String :=
  if "www.".data.isPrefixOf h.data then ⟨h.data.drop 4⟩ else h

/-- `pathname.replace(/\/$/, '')`: strip one trailing slash. -/
def replaceTrailingSlash (p : String) : String :=
  if p.data.getLast? = some '/' then ⟨p.data.dropLast⟩ else p

/-- `DeduplicationService.canonicalizeUrl`: on parse failure return the
input unchanged (the catch branch); otherwise delete each tracking
parameter, strip `www.` and the trailing slash, and serialize. -/
def canonicalizeUrl (url : String) : String :=
  match parseUrl url with
  | none => url
  | some urlObj =>
    let afterParams := trackingParams.foldl deleteParam urlObj
    let afterHost := { afterParams with hostname := replaceLeadingWww afterParams.hostname }
    let afterPath := { afterHost with pathname := replaceTrailingSlash afterHost.pathname }
    renderUrl afterPath

theorem filter_filter_decide {α : Type} (p q : α → Bool) (l : List α) :
    (l.filter p).filter q = l.filter fun a => p a && q a := by
  induction l with
  | nil => rfl
  | cons x xs ih =>
    by_cases hp : p x <;> by_cases hq : q x <;>
      simp [List.filter_cons, hp, hq, ih]

/-- Folding `URLSearchParams.delete` over the tracking-parameter list is
the same as one filter keeping only non-tracking names. -/
theorem foldl_deleteParam (u : UrlObj) (params : List String) :
    (params.foldl deleteParam u).searchParams =
      u.searchParams.filter fun kv => decide (kv.1 ∉ params) := by
  induction params generalizing u with
  | nil => simp
  | cons p ps ih =>
    rw [List.foldl_cons, ih]
    simp only [deleteParam]
    rw [filter_filter_decide]
    congr 1
    funext kv
    by_cases h1 : kv.1 = p <;> by_cases h2 : kv.1 ∈ ps <;> simp [h1, h2]

theorem foldl_deleteParam_other (u : UrlObj) (params : List String) :
    ((params.foldl deleteParam u).scheme = u.scheme ∧
      (params.foldl deleteParam u).hostname = u.hostname ∧
      (params.foldl deleteParam u).port = u.port ∧
      (params.foldl deleteParam u).pathname = u.pathname ∧
      (params.foldl deleteParam u).fragment = u.fragment) := by
  induction params generalizing u with
  | nil => simp
  | cons p ps ih =>
    rw [List.foldl_cons]
    exact ih (deleteParam u p)

/-- C10: `canonicalizeUrl` is total — on any string that fails URL
parsing it returns the input unchanged, and on any parseable URL it
serializes the parsed object with every tracking-named query entry
removed, one leading `www.` stripped from the hostname, one trailing
slash stripped from the path, and all other components unchanged. -/
theorem C10_canonicalizeUrl_total : ∀ url : String,
    (parseUrl url = none → canonicalizeUrl url = url) ∧
    (∀ u : UrlObj, parseUrl url = some u →
      canonicalizeUrl url = renderUrl
        { u with
          searchParams := u.searchParams.filter fun kv => decide (kv.1 ∉ trackingParams)
          hostname := replaceLeadingWww u.hostname
          pathname := replaceTrailingSlash u.pathname } ∧
      ∀ kv ∈ ({ u with
          searchParams := u.searchParams.filter fun kv => decide (kv.1 ∉ trackingParams)
          hostname := replaceLeadingWww u.hostname
          pathname := replaceTrailingSlash u.pathname } : UrlObj).searchParams,
        kv.1 ∉ trackingParams) := by
  intro url
  constructor
  · intro hnone
    unfold canonicalizeUrl
    rw [hnone]
  · intro u hsome
    obtain ⟨sc, ho, po, pa, sp, fr⟩ := u
    have hsp := foldl_deleteParam ⟨sc, ho, po, pa, sp, fr⟩ trackingParams
    obtain ⟨hs, hh, hp, hpa, hf⟩ :=
      foldl_deleteParam_other ⟨sc, ho, po, pa, sp, fr⟩ trackingParams
    constructor
    · simp only [canonicalizeUrl, hsome]
      cases hfold : trackingParams.foldl deleteParam ⟨sc, ho, po, pa, sp, fr⟩ with
      | mk sc' ho' po' pa' sp' fr' =>
        rw [hfold] at hsp hs hh hp hpa hf
        simp only at hsp hs hh hp hpa hf
        simp [hsp, hs, hh, hp, hpa, hf]
    · intro kv hkv
      simp only [List.mem_filter] at hkv
      have := hkv.2
      simpa using this

set_option maxHeartbeats 2000000 in
/-- C10 witness: a garbage string comes back unchanged, and a concrete
URL with a tracking parameter, `www.` host and trailing slash is cleaned
as the theorem states. -/
theorem C10_canonicalizeUrl_total_witness :
    canonicalizeUrl "nourl" = "nourl" ∧
    canonicalizeUrl "https://www.ex.co/a/?ref=1&id=7" = "https://ex.co/a?id=7" := by
  constructor
  · exact (C10_canonicalizeUrl_total "nourl").1 (by decide)
  · have h := ((C10_canonicalizeUrl_total "https://www.ex.co/a/?ref=1&id=7").2
      { scheme := "https", hostname := "www.ex.co", port := "",
        pathname := "/a/", searchParams := [("ref", "1"), ("id", "7")],
        fragment := "" } (by decide)).1
    rw [h]
    decide

/-! ## Merging duplicate groups (`DeduplicationService.mergeDuplicates`) -/

/-- The fixed source ranking: `['mlh', 'devpost', 'eventbrite']` (MLH is
most authoritative). -/
def sourcePriority : List String := ["mlh", "devpost", "eventbrite"]

/-- `Array.prototype.indexOf`: index of the first occurrence, `-1` when
absent. -/
def jsIndexOfAux (s : String) : List String → Nat → Int
  | [], _ => -1
  | x :: xs, i => if x = s then (i : Int) else jsIndexOfAux s xs (i + 1)

def jsIndexOf (l : List String) (s : String) : Int := jsIndexOfAux s l 0

/-- One iteration of the base-selection loop in `mergeDuplicates`: switch
to the duplicate when its source ranks strictly higher (smaller index)
and is present in the ranking. -/
def pickStep (best duplicate : NormalizedHackathon) : NormalizedHackathon :=
  if jsIndexOf sourcePriority duplicate.source < jsIndexOf sourcePriority best.source ∧
      jsIndexOf sourcePriority duplicate.source ≠ -1 then duplicate
  else best

/-- The `best` record after the loop over `duplicates`. -/
def pickBase (original : NormalizedHackathon) (duplicates : List NormalizedHackathon) :
    NormalizedHackathon :=
  duplicates.foldl pickStep original

/-- `best.description?.length || 0`. -/
def jsDescLen : Option String → Nat
  | some s => s.length
  | none => 0

/-- `.filter(Boolean)` over an array of optional strings: keep truthy
values. -/
def filterBoolean (l : List (Option String)) : List String :=
  l.filterMap fun o =>
    match o with
    | some s => if s = "" then none else some s
    | none => none

/-- `.sort()[0]`: JS default sort is lexicographic string order, so this
is the head of the sorted list. -/
def jsSortHead (l : List String) : Option String :=
  (l.mergeSort fun a b => a ≤ b).head?

/-- `DeduplicationService.mergeDuplicates`: pick the base record by
source priority, then spread it with the first strictly-longer truthy
description in `[original, ...duplicates]` order, the sorted-first truthy
registration deadline, the first truthy registration URL, and the base's
website URL or else the first truthy one. -/
def mergeDuplicates (original : NormalizedHackathon)
    (duplicates : List NormalizedHackathon) : NormalizedHackathon :=
  let best := pickBase original duplicates
  let allEvents := original :: duplicates
  { best with
    description :=
      match allEvents.find? (fun e => jsTruthy e.description &&
          decide (jsDescLen e.description > jsDescLen best.description)) with
      | some e => e.description
      | none => best.description
    registration_deadline :=
      match jsSortHead (filterBoolean (allEvents.map fun e => e.registration_deadline)) with
      | some d => some d
      | none => best.registration_deadline
    registration_url :=
      match allEvents.find? (fun e => jsTruthy e.registration_url) with
      | some e => e.registration_url
      | none => best.registration_url
    website_url :=
      if jsTruthy best.website_url then best.website_url
      else
        match allEvents.find? (fun e => jsTruthy e.website_url) with
        | some e => e.website_url
        | none => none }

theorem jsIndexOfAux_neg_one (s : String) :
    ∀ (l : List String) (i : Nat), s ∉ l → jsIndexOfAux s l i = -1 := by
  intro l
  induction l with
  | nil => intro i _; rfl
  | cons x xs ih =>
    intro i hmem
    have hx : ¬x = s := fun h => hmem (h ▸ List.mem_cons_self x xs)
    simp only [jsIndexOfAux, if_neg hx]
    exact ih (i + 1) (fun h => hmem (List.mem_cons_of_mem x h))

theorem jsIndexOfAux_nonneg (s : String) :
    ∀ (l : List String) (i : Nat), s ∈ l → (i : Int) ≤ jsIndexOfAux s l i := by
  intro l
  induction l with
  | nil => intro i h; cases h
  | cons x xs ih =>
    intro i hmem
    by_cases hx : x = s
    · simp [jsIndexOfAux, hx]
    · simp only [jsIndexOfAux, if_neg hx]
      have hmem' : s ∈ xs := by
        cases hmem with
        | head => exact absurd rfl hx
        | tail _ h => exact h
      have := ih (i + 1) hmem'
      omega

theorem jsIndexOf_ne_neg_one_of_mem {s : String} {l : List String} (h : s ∈ l) :
    jsIndexOf l s ≠ -1 := by
  have := jsIndexOfAux_nonneg s l 0 h
  unfold jsIndexOf
  omega

/-- The base-selection fold stays inside the group. -/
theorem pickBase_mem (original : NormalizedHackathon) (duplicates : List NormalizedHackathon) :
    pickBase original duplicates ∈ original :: duplicates := by
  unfold pickBase
  induction duplicates generalizing original with
  | nil => simp
  | cons d ds ih =>
    rw [List.foldl_cons]
    have hstep : pickStep original d = original ∨ pickStep original d = d := by
      unfold pickStep
      split
      · right; rfl
      · left; rfl
    have hmem := List.mem_cons.mp (ih (pickStep original d))
    rcases hmem with h | h
    · rcases hstep with he | he
      · rw [h, he]
        exact List.mem_cons_self _ _
      · rw [h, he]
        exact List.mem_cons_of_mem _ (List.mem_cons_self _ _)
    · exact List.mem_cons_of_mem _ (List.mem_cons_of_mem _ h)

theorem pickStep_le_left (b d : NormalizedHackathon) :
    jsIndexOf sourcePriority (pickStep b d).source ≤ jsIndexOf sourcePriority b.source := by
  unfold pickStep
  split
  · rename_i hcond
    exact le_of_lt hcond.1
  · exact le_rfl

theorem pickStep_le_right (b d : NormalizedHackathon) (hd : d.source ∈ sourcePriority) :
    jsIndexOf sourcePriority (pickStep b d).source ≤ jsIndexOf sourcePriority d.source := by
  unfold pickStep
  split
  · exact le_rfl
  · rename_i hcond
    push_neg at hcond
    have hne := jsIndexOf_ne_neg_one_of_mem hd
    by_contra hlt
    push_neg at hlt
    exact hne (hcond hlt)

theorem pickStep_source_mem {b d : NormalizedHackathon} (hb : b.source ∈ sourcePriority)
    (hd : d.source ∈ sourcePriority) : (pickStep b d).source ∈ sourcePriority := by
  unfold pickStep
  split <;> assumption

/-- When every member's source is in the ranking, the selected base has
the minimal priority index over the whole group. -/
theorem pickBase_min (original : NormalizedHackathon) (duplicates : List NormalizedHackathon)
    (h : ∀ e ∈ original :: duplicates, e.source ∈ sourcePriority) :
    ∀ e ∈ original :: duplicates,
      jsIndexOf sourcePriority (pickBase original duplicates).source ≤
        jsIndexOf sourcePriority e.source := by
  unfold pickBase
  induction duplicates generalizing original with
  | nil =>
    intro e he
    have he' : e = original := by simpa using he
    rw [he', List.foldl_nil]
  | cons d ds ih =>
    have horig : original.source ∈ sourcePriority := h original (List.mem_cons_self _ _)
    have hd_mem : d.source ∈ sourcePriority :=
      h d (List.mem_cons_of_mem _ (List.mem_cons_self _ _))
    have hstep_mem : (pickStep original d).source ∈ sourcePriority :=
      pickStep_source_mem horig hd_mem
    have h' : ∀ e ∈ pickStep original d :: ds, e.source ∈ sourcePriority := by
      intro e he
      cases he with
      | head => exact hstep_mem
      | tail _ hmem =>
        exact h e (List.mem_cons_of_mem _ (List.mem_cons_of_mem _ hmem))
    have ihx := ih (pickStep original d) h'
    intro e he
    rw [List.foldl_cons]
    have hhead := ihx (pickStep original d) (List.mem_cons_self _ _)
    cases he with
    | head =>
      exact le_trans hhead (pickStep_le_left original d)
    | tail _ hmem =>
      cases hmem with
      | head =>
        exact le_trans hhead (pickStep_le_right original d hd_mem)
      | tail _ hmem2 =>
        exact ihx e (List.mem_cons_of_mem _ hmem2)

theorem jsSortHead_nil : jsSortHead [] = none := by
  simp [jsSortHead]

/-- `.sort()[0]` on a non-empty list of strings is a minimum of the
list. -/
theorem jsSortHead_min (l : List String) (hne : l ≠ []) :
    ∃ m, jsSortHead l = some m ∧ m ∈ l ∧ ∀ x ∈ l, m ≤ x := by
  unfold jsSortHead
  have htrans : ∀ a b c : String,
      (fun a b : String => (a ≤ b : Bool)) a b = true →
      (fun a b : String => (a ≤ b : Bool)) b c = true →
      (fun a b : String => (a ≤ b : Bool)) a c = true := by
    intro a b c hab hbc
    simp only [decide_eq_true_iff] at hab hbc ⊢
    exact le_trans hab hbc
  have htotal : ∀ a b : String,
      ((fun a b : String => (a ≤ b : Bool)) a b ||
        (fun a b : String => (a ≤ b : Bool)) b a) = true := by
    intro a b
    simp only [Bool.or_eq_true, decide_eq_true_iff]
    exact le_total a b
  have hsorted := List.sorted_mergeSort htrans htotal l
  have hperm := List.mergeSort_perm l (fun a b : String => (a ≤ b : Bool))
  cases hms : l.mergeSort (fun a b : String => (a ≤ b : Bool)) with
  | nil =>
    exfalso
    have := hperm.length_eq
    rw [hms] at this
    cases l with
    | nil => exact hne rfl
    | cons x xs => simp at this
  | cons m rest =>
    refine ⟨m, rfl, ?_, ?_⟩
    · have : m ∈ l.mergeSort (fun a b : String => (a ≤ b : Bool)) := by
        rw [hms]; exact List.mem_cons_self _ _
      exact hperm.mem_iff.mp this
    · intro x hx
      have hx' : x ∈ m :: rest := by
        rw [← hms]
        exact hperm.mem_iff.mpr hx
      rw [hms] at hsorted
      cases hx' with
      | head => exact le_rfl
      | tail _ hmem =>
        have := (List.pairwise_cons.mp hsorted).1 x hmem
        simpa using this

/-- C2 (amended): the merged record's base is a group member of minimal
`SourcePriority` index; title, dates, location, online flag and source are
the base's; the description becomes the first description in
`[original, ...duplicates]` order that is strictly longer than the base's
(the base's own when none is longer); the registration deadline becomes
the least (for ISO strings: earliest) non-empty deadline of the group
when one exists; the registration URL becomes the first present
registration URL in group order even when the base has its own; a present
website URL is preferred only when the base lacks one. -/
theorem C2_mergeDuplicates_spec (original : NormalizedHackathon)
    (duplicates : List NormalizedHackathon)
    (h : ∀ e ∈ original :: duplicates, e.source ∈ sourcePriority) :
    ∃ base,
      base ∈ original :: duplicates ∧
      (∀ e ∈ original :: duplicates,
        jsIndexOf sourcePriority base.source ≤ jsIndexOf sourcePriority e.source) ∧
      (mergeDuplicates original duplicates).title = base.title ∧
      (mergeDuplicates original duplicates).start_date = base.start_date ∧
      (mergeDuplicates original duplicates).end_date = base.end_date ∧
      (mergeDuplicates original duplicates).location = base.location ∧
      (mergeDuplicates original duplicates).is_online = base.is_online ∧
      (mergeDuplicates original duplicates).source = base.source ∧
      ((mergeDuplicates original duplicates).description =
        match (original :: duplicates).find? (fun e => jsTruthy e.description &&
            decide (jsDescLen e.description > jsDescLen base.description)) with
        | some e => e.description
        | none => base.description) ∧
      (filterBoolean ((original :: duplicates).map fun e => e.registration_deadline) = [] →
        (mergeDuplicates original duplicates).registration_deadline =
          base.registration_deadline) ∧
      (filterBoolean ((original :: duplicates).map fun e => e.registration_deadline) ≠ [] →
        ∃ d, (mergeDuplicates original duplicates).registration_deadline = some d ∧
          d ∈ filterBoolean ((original :: duplicates).map fun e => e.registration_deadline) ∧
          ∀ x ∈ filterBoolean ((original :: duplicates).map fun e => e.registration_deadline),
            d ≤ x) ∧
      ((mergeDuplicates original duplicates).registration_url =
        match (original :: duplicates).find? (fun e => jsTruthy e.registration_url) with
        | some e => e.registration_url
        | none => base.registration_url) ∧
      ((mergeDuplicates original duplicates).website_url =
        if jsTruthy base.website_url then base.website_url
        else
          match (original :: duplicates).find? (fun e => jsTruthy e.website_url) with
          | some e => e.website_url
          | none => none) := by
  refine ⟨pickBase original duplicates, pickBase_mem original duplicates,
    pickBase_min original duplicates h, ?_, ?_, ?_, ?_, ?_, ?_, ?_, ?_, ?_, ?_, ?_⟩
  · simp [mergeDuplicates]
  · simp [mergeDuplicates]
  · simp [mergeDuplicates]
  · simp [mergeDuplicates]
  · simp [mergeDuplicates]
  · simp [mergeDuplicates]
  · simp [mergeDuplicates]
  · intro hnil
    rw [List.map_cons] at hnil
    simp [mergeDuplicates, hnil, jsSortHead_nil]
  · intro hne
    obtain ⟨d, hd, hmem, hmin⟩ :=
      jsSortHead_min (filterBoolean ((original :: duplicates).map
        fun e => e.registration_deadline)) hne
    refine ⟨d, ?_, hmem, hmin⟩
    rw [List.map_cons] at hd
    simp [mergeDuplicates, hd]
  · simp [mergeDuplicates]
  · simp [mergeDuplicates]

/-- Concrete group refuting C2 as stated: the original (devpost). -/
def cexMergeOriginal : NormalizedHackathon :=
  { title := "t", description := some "dd", start_date := "s", end_date := "e",
    registration_deadline := none, location := "l", is_online := true,
    website_url := none, registration_url := some "A", source := "devpost" }

/-- Concrete group refuting C2 as stated: the highest-priority member
(mlh), which becomes the base. -/
def cexMergeD1 : NormalizedHackathon :=
  { title := "t1", description := some "e", start_date := "s", end_date := "e",
    registration_deadline := none, location := "l", is_online := true,
    website_url := none, registration_url := some "B", source := "mlh" }

/-- Concrete group refuting C2 as stated: the member holding the longest
description (eventbrite). -/
def cexMergeD2 : NormalizedHackathon :=
  { title := "t2", description := some "ffff", start_date := "s", end_date := "e",
    registration_deadline := none, location := "l", is_online := true,
    website_url := none, registration_url := none, source := "eventbrite" }

/-- C2 counterexample: in this group the base is the mlh member
`cexMergeD1`, yet the merged description is `"dd"` — the first
description longer than the base's, not the longest one `"ffff"` — and
the merged registration URL is the original's `"A"` although the base
carries its own `"B"`.  Both contradict the claim's "longest non-empty
description" and "registration URL preferred only when the base lacks
one". -/
theorem C2_mergeDuplicates_counterexample :
    pickBase cexMergeOriginal [cexMergeD1, cexMergeD2] = cexMergeD1 ∧
    (∀ e ∈ [cexMergeOriginal, cexMergeD1, cexMergeD2],
      jsIndexOf sourcePriority cexMergeD1.source ≤ jsIndexOf sourcePriority e.source) ∧
    cexMergeD1.registration_url = some "B" ∧
    (mergeDuplicates cexMergeOriginal [cexMergeD1, cexMergeD2]).registration_url =
      some "A" ∧
    cexMergeD2.description = some "ffff" ∧
    (∀ e ∈ [cexMergeOriginal, cexMergeD1, cexMergeD2], jsDescLen e.description ≤ 4) ∧
    (mergeDuplicates cexMergeOriginal [cexMergeD1, cexMergeD2]).description =
      some "dd" := by
  decide

/-- C2 witness: the amended statement applied to the concrete group
above. -/
theorem C2_mergeDuplicates_spec_witness :
    ∃ base,
      base ∈ cexMergeOriginal :: [cexMergeD1, cexMergeD2] ∧
      (∀ e ∈ cexMergeOriginal :: [cexMergeD1, cexMergeD2],
        jsIndexOf sourcePriority base.source ≤ jsIndexOf sourcePriority e.source) ∧
      (mergeDuplicates cexMergeOriginal [cexMergeD1, cexMergeD2]).title = base.title ∧
      (mergeDuplicates cexMergeOriginal [cexMergeD1, cexMergeD2]).start_date =
        base.start_date ∧
      (mergeDuplicates cexMergeOriginal [cexMergeD1, cexMergeD2]).end_date =
        base.end_date ∧
      (mergeDuplicates cexMergeOriginal [cexMergeD1, cexMergeD2]).location =
        base.location ∧
      (mergeDuplicates cexMergeOriginal [cexMergeD1, cexMergeD2]).is_online =
        base.is_online ∧
      (mergeDuplicates cexMergeOriginal [cexMergeD1, cexMergeD2]).source = base.source ∧
      ((mergeDuplicates cexMergeOriginal [cexMergeD1, cexMergeD2]).description =
        match (cexMergeOriginal :: [cexMergeD1, cexMergeD2]).find? (fun e =>
            jsTruthy e.description &&
            decide (jsDescLen e.description > jsDescLen base.description)) with
        | some e => e.description
        | none => base.description) ∧
      (filterBoolean ((cexMergeOriginal :: [cexMergeD1, cexMergeD2]).map
          fun e => e.registration_deadline) = [] →
        (mergeDuplicates cexMergeOriginal [cexMergeD1, cexMergeD2]).registration_deadline =
          base.registration_deadline) ∧
      (filterBoolean ((cexMergeOriginal :: [cexMergeD1, cexMergeD2]).map
          fun e => e.registration_deadline) ≠ [] →
        ∃ d, (mergeDuplicates cexMergeOriginal
            [cexMergeD1, cexMergeD2]).registration_deadline = some d ∧
          d ∈ filterBoolean ((cexMergeOriginal :: [cexMergeD1, cexMergeD2]).map
            fun e => e.registration_deadline) ∧
          ∀ x ∈ filterBoolean ((cexMergeOriginal :: [cexMergeD1, cexMergeD2]).map
            fun e => e.registration_deadline), d ≤ x) ∧
      ((mergeDuplicates cexMergeOriginal [cexMergeD1, cexMergeD2]).registration_url =
        match (cexMergeOriginal :: [cexMergeD1, cexMergeD2]).find? (fun e =>
            jsTruthy e.registration_url) with
        | some e => e.registration_url
        | none => base.registration_url) ∧
      ((mergeDuplicates cexMergeOriginal [cexMergeD1, cexMergeD2]).website_url =
        if jsTruthy base.website_url then base.website_url
        else
          match (cexMergeOriginal :: [cexMergeD1, cexMergeD2]).find? (fun e =>
              jsTruthy e.website_url) with
          | some e => e.website_url
          | none => none) :=
  C2_mergeDuplicates_spec cexMergeOriginal [cexMergeD1, cexMergeD2] (by decide)

/-! ## Candidate validation (`BaseAdapter.validateHackathon`)

The source receives a `Partial<NormalizedHackathon>` and checks the five
required fields with JS falsiness (`!data[field]`), so a missing field
and an empty string behave identically; we model both as `""`.  Date
comparison `new Date(start) >= new Date(end)` is modelled through the
timestamp parse parameter `pd`. -/

/-- The `required` field list of the source. -/
def requiredFields : List String :=
  ["title", "start_date", "end_date", "location", "source"]

/-- Field access `data[field]` for the required (string-valued) fields. -/
def fieldValue (data : NormalizedHackathon) (f : String) : String :=
  if f = "title" then data.title
  else if f = "start_date" then data.start_date
  else if f = "end_date" then data.end_date
  else if f = "location" then data.location
  else data.source

/-- `BaseAdapter.validateHackathon`: collect falsy required fields and
throw listing them; then throw when the start timestamp is not strictly
before the end timestamp; otherwise succeed.  The thrown
`ScrapingError` is modelled as the `Except.error` message. -/
def validateHackathon (pd : String → Int) (data : NormalizedHackathon) :
    Except String Unit :=
  let missing := requiredFields.filter fun f => fieldValue data f = ""
  if missing ≠ [] then
    .error ("Missing required fields: " ++ String.intercalate ", " missing)
  else if pd data.start_date ≥ pd data.end_date then
    .error "Start date must be before end date"
  else
    .ok ()

/-- C4: validation succeeds exactly when the five required fields are
non-empty and the parsed start timestamp is strictly before the parsed
end timestamp; in every other case it fails with an error scoped to this
one candidate, so a record with `start ≥ end` never passes. -/
theorem C4_validateHackathon_iff :
    ∀ (pd : String → Int) (data : NormalizedHackathon),
      (validateHackathon pd data = .ok () ↔
        (data.title ≠ "" ∧ data.start_date ≠ "" ∧ data.end_date ≠ "" ∧
          data.location ≠ "" ∧ data.source ≠ "" ∧
          pd data.start_date < pd data.end_date)) ∧
      (validateHackathon pd data ≠ .ok () → ∃ msg, validateHackathon pd data = .error msg) := by
  intro pd data
  constructor
  · unfold validateHackathon
    simp only [requiredFields, fieldValue]
    constructor
    · intro hok
      split at hok
      · exact absurd hok (by simp)
      · split at hok
        · exact absurd hok (by simp)
        · rename_i hmiss hdate
          push_neg at hmiss
          have hall := List.filter_eq_nil.mp hmiss
          have ht := hall "title" (by simp)
          have hsd := hall "start_date" (by simp)
          have hed := hall "end_date" (by simp)
          have hloc := hall "location" (by simp)
          have hsrc := hall "source" (by simp)
          simp only [decide_eq_true_iff, String.reduceEq, if_true, if_false,
            ite_true, ite_false] at ht hsd hed hloc hsrc
          exact ⟨by simpa using ht, by simpa using hsd, by simpa using hed,
            by simpa using hloc, by simpa using hsrc, by omega⟩
    · intro ⟨ht, hs, he, hl, hsrc, hdate⟩
      have hfilter : (["title", "start_date", "end_date", "location", "source"].filter
          fun f =>
            (if f = "title" then data.title
            else if f = "start_date" then data.start_date
            else if f = "end_date" then data.end_date
            else if f = "location" then data.location
            else data.source) = "") = [] := by
        simp [List.filter, ht, hs, he, hl, hsrc]
      rw [if_neg (by simp [hfilter]), if_neg (by omega)]
  · intro hne
    simp only [validateHackathon] at hne ⊢
    split
    · exact ⟨_, rfl⟩
    · rename_i h1
      split
      · exact ⟨_, rfl⟩
      · rename_i h2
        rw [if_neg h1, if_neg h2] at hne
        exact absurd rfl hne

/-- C4 witness: a fully populated record with parsed start before end
passes validation. -/
theorem C4_validateHackathon_iff_witness :
    validateHackathon (fun s => if s = "2024-10-15" then 0 else 1)
      { title := "t", description := none, start_date := "2024-10-15",
        end_date := "2024-10-17", registration_deadline := none, location := "l",
        is_online := true, website_url := none, registration_url := none,
        source := "devpost" } = .ok () :=
  (C4_validateHackathon_iff (fun s => if s = "2024-10-15" then 0 else 1)
    { title := "t", description := none, start_date := "2024-10-15",
      end_date := "2024-10-17", registration_deadline := none, location := "l",
      is_online := true, website_url := none, registration_url := none,
      source := "devpost" }).1.mpr (by decide)

/-! ## Fetch retries (`HttpClient.makeRequest`)

`makeRequest` recurses with `attempt + 1` while `attempt < maxRetries`,
sleeping `retryDelay * 2^(attempt-1)` before each retry, and after the
final failed attempt throws a `ScrapingError` carrying the source id, the
URL, the attempt count (in its message) and the underlying error.  The
recursion is driven below by the fuel `maxRetries - attempt`, which the
entry point establishes; `respond` supplies each attempt's outcome
(`.ok` body for a 2xx response, `.error` for a transport error or the
`HTTP <status>` error thrown on a non-2xx response). -/

/-- The `ScrapingError` class of `types/ingestion.ts`. -/
structure ScrapingError where
  message : String
  source_id : String
  url : Option String
  originalError : Option String
deriving DecidableEq

/-- The message built when retries are exhausted. -/
def fetchFailMessage (url : String) (attempts : Nat) : String :=
  "Failed to fetch " ++ url ++ " after " ++ toString attempts ++ " attempts"

def makeRequestAux (respond : Nat → Except String String) (maxRetries retryDelay : Nat)
    (url source_id : String) : Nat → Nat → List Nat × Except ScrapingError String
  | fuel, attempt =>
    match respond attempt with
    | .ok body => ([], .ok body)
    | .error e =>
      match fuel with
      | 0 => ([], .error ⟨fetchFailMessage url maxRetries, source_id, some url, some e⟩)
      | fuel' + 1 =>
        let delay := retryDelay * 2 ^ (attempt - 1)
        let rest := makeRequestAux respond maxRetries retryDelay url source_id fuel' (attempt + 1)
        (delay :: rest.1, rest.2)

/-- `HttpClient.makeRequest` from attempt 1: the outcome together with
the list of backoff delays slept. -/
def makeRequest (respond : Nat → Except String String) (maxRetries retryDelay : Nat)
    (url source_id : String) : List Nat × Except ScrapingError String :=
  makeRequestAux respond maxRetries retryDelay url source_id (maxRetries - 1) 1

/-- JS `x || default` on an optional numeric option (`0` is falsy). -/
def jsOrNat (o : Option Nat) (d : Nat) : Nat :=
  match o with
  | some n => if n = 0 then d else n
  | none => d

/-- `options.maxRetries || 3` in the `HttpClient` constructor. -/
def httpClientMaxRetries (o : Option Nat) : Nat := jsOrNat o 3

/-- `options.retryDelay || 1000` in the `HttpClient` constructor. -/
def httpClientRetryDelay (o : Option Nat) : Nat := jsOrNat o 1000

theorem makeRequestAux_all_fail (respond : Nat → Except String String) (err : Nat → String)
    (hfail : ∀ k, respond k = .error (err k)) (maxRetries retryDelay : Nat)
    (url source_id : String) :
    ∀ fuel attempt,
      makeRequestAux respond maxRetries retryDelay url source_id fuel attempt =
        ((List.range fuel).map fun k => retryDelay * 2 ^ (attempt + k - 1),
          .error ⟨fetchFailMessage url maxRetries, source_id, some url,
            some (err (attempt + fuel))⟩) := by
  intro fuel
  induction fuel with
  | zero =>
    intro attempt
    rw [makeRequestAux, hfail attempt]
    simp
  | succ fuel ih =>
    intro attempt
    rw [makeRequestAux, hfail attempt]
    simp only [ih (attempt + 1)]
    rw [List.range_succ_eq_map, List.map_cons, List.map_map]
    rw [Prod.mk.injEq]
    refine ⟨?_, ?_⟩
    · have hhead : attempt + 0 - 1 = attempt - 1 := by omega
      rw [hhead]
      congr 1
      congr 1
      funext k
      simp only [Function.comp_apply]
      congr 2
      omega
    · have harg : attempt + 1 + fuel = attempt + (fuel + 1) := by omega
      rw [harg]

/-- C5: when every attempt fails, `makeRequest` makes exactly
`maxRetries` attempts, sleeping `retryDelay * 2^(attempt-1)` before the
retry that becomes attempt `attempt+1`, and ends with a `ScrapingError`
carrying the source id, the URL, the attempt count (in its message) and
the last underlying error; the constructor defaults are `maxRetries = 3`
and `retryDelay = 1000`. -/
theorem C5_makeRequest_retry_backoff (respond : Nat → Except String String)
    (err : Nat → String) (hfail : ∀ k, respond k = .error (err k))
    (maxRetries retryDelay : Nat) (hmr : 1 ≤ maxRetries) (url source_id : String) :
    makeRequest respond maxRetries retryDelay url source_id =
      ((List.range (maxRetries - 1)).map fun k => retryDelay * 2 ^ k,
        .error ⟨fetchFailMessage url maxRetries, source_id, some url,
          some (err maxRetries)⟩) ∧
    httpClientMaxRetries none = 3 ∧ httpClientRetryDelay none = 1000 := by
  refine ⟨?_, rfl, rfl⟩
  unfold makeRequest
  rw [makeRequestAux_all_fail respond err hfail maxRetries retryDelay url source_id
    (maxRetries - 1) 1]
  rw [Prod.mk.injEq]
  refine ⟨?_, ?_⟩
  · congr 1
    funext k
    congr 2
    omega
  · have harg : 1 + (maxRetries - 1) = maxRetries := by omega
    rw [harg]

/-- C5 witness: with three attempts all failing, the delays are 1000 ms
and 2000 ms and the final error carries source, URL, attempt count and
cause. -/
theorem C5_makeRequest_retry_backoff_witness :
    makeRequest (fun _ => .error "boom") 3 1000 "https://u" "devpost" =
      ([1000, 2000], .error ⟨fetchFailMessage "https://u" 3, "devpost",
        some "https://u", some "boom"⟩) := by
  have h := (C5_makeRequest_retry_backoff (fun _ => .error "boom") (fun _ => "boom")
    (fun _ => rfl) 3 1000 (by omega) "https://u" "devpost").1
  rw [h]
  rfl

/-! ## robots.txt politeness (`HttpClient.isAllowedByRobotsTxt`,
`BaseAdapter.isRobotsTxtCompliant`)

The parser walks the lines (trimmed, lowercased), tracks the active
`User-agent` block — relevant when it is `*`, equals the crawler's
lowercased agent string, or is a substring of it — and collects that
block's non-empty `Allow`/`Disallow` prefixes (each `user-agent:` line
resets both lists).  A path is permitted when it starts with an `Allow`
prefix, else forbidden when it starts with a `Disallow` prefix, else
permitted; a missing robots.txt permits everything. -/

/-- `String.prototype.startsWith`. -/
def jsStartsWith (s pre : String) : Bool := pre.data.isPrefixOf s.data

/-- `String.prototype.substring(n)`. -/
def jsSubstrFrom (s : String) (n : Nat) : String := ⟨s.data.drop n⟩

/-- `String.prototype.includes`. -/
def jsIncludes (hay needle : String) : Bool :=
  (List.range (hay.data.length + 1)).any fun i => needle.data.isPrefixOf (hay.data.drop i)

/-- `String.prototype.split('\n')`. -/
def jsSplitLines (s : String) : List String :=
  (splitAllChar '\n' s.data).map fun cs => ⟨cs⟩

/-- The parser's loop variables. -/
structure RobotsState where
  currentUserAgent : String
  isRelevantSection : Bool
  disallowed : List String
  allowed : List String
deriving DecidableEq

/-- One iteration of the line loop of `isAllowedByRobotsTxt`. -/
def robotsLineStep (userAgent : String) (st : RobotsState) (line : String) : RobotsState :=
  if jsStartsWith line "user-agent:" then
    let ua := jsTrim (jsSubstrFrom line 11)
    { currentUserAgent := ua,
      isRelevantSection := ua = "*" || ua = jsToLower userAgent ||
        jsIncludes (jsToLower userAgent) ua,
      disallowed := [], allowed := [] }
  else if st.isRelevantSection then
    if jsStartsWith line "disallow:" then
      let p := jsTrim (jsSubstrFrom line 9)
      if p ≠ "" then { st with disallowed := st.disallowed ++ [p] } else st
    else if jsStartsWith line "allow:" then
      let p := jsTrim (jsSubstrFrom line 6)
      if p ≠ "" then { st with allowed := st.allowed ++ [p] } else st
    else st
  else st

/-- The state after the line loop: the accumulated rules of the last
relevant block. -/
def robotsFinalState (content userAgent : String) : RobotsState :=
  ((jsSplitLines content).map fun l => jsToLower (jsTrim l)).foldl
    (robotsLineStep userAgent) ⟨"", false, [], []⟩

/-- The final decision of `isAllowedByRobotsTxt`: an `Allow` prefix match
permits, else a `Disallow` prefix match forbids, else permitted. -/
def robotsDecision (st : RobotsState) (path : String) : Bool :=
  if st.allowed.any (fun a => jsStartsWith path a) then true
  else if st.disallowed.any (fun d => jsStartsWith path d) then false
  else true

/-- `HttpClient.isAllowedByRobotsTxt` (with `none` for the null content
handed over when robots.txt could not be fetched). -/
def isAllowedByRobotsTxt (robotsContent : Option String) (userAgent path : String) : Bool :=
  match robotsContent with
  | none => true
  | some content => robotsDecision (robotsFinalState content userAgent) path

/-- `BaseAdapter.isRobotsTxtCompliant`: no robots.txt passes; otherwise
every scraping path must be allowed for the fixed agent
`HackathonSnifferBot`. -/
def isRobotsTxtCompliant (robotsContent : Option String) (scrapingPaths : List String) : Bool :=
  match robotsContent with
  | none => true
  | some content =>
    scrapingPaths.all fun path =>
      isAllowedByRobotsTxt (some content) "HackathonSnifferBot" path

/-- The control flow of `IngestionScheduler.runAdapterIngestion`: the
compliance check runs first and a failure throws before `scrape()`, so
the adapter's content fetches happen only when the check passes. -/
def adapterContentFetches (robotsContent : Option String) (scrapingPaths : List String)
    (scrapeFetches : List String) : List String :=
  if isRobotsTxtCompliant robotsContent scrapingPaths then scrapeFetches else []

/-- The robots.txt of the claim's scenario. -/
def robotsFixture : String := "User-agent: *\nDisallow: /hackathons"

/-- C6: under `User-agent: *` with `Disallow: /hackathons`, the path
`/hackathons` is forbidden for the crawler; for every adapter whose
scraping paths include it, the compliance check fails and the run
performs no content fetch at all; in general the decision is
allow-prefix first, then disallow-prefix, then permitted by default, and
a missing robots.txt permits. -/
theorem C6_robots_disallow_aborts (paths fetches : List String)
    (hmem : "/hackathons" ∈ paths) :
    isAllowedByRobotsTxt (some robotsFixture) "HackathonSnifferBot" "/hackathons" = false ∧
    isRobotsTxtCompliant (some robotsFixture) paths = false ∧
    adapterContentFetches (some robotsFixture) paths fetches = [] ∧
    (∀ content ua p, isAllowedByRobotsTxt (some content) ua p =
      robotsDecision (robotsFinalState content ua) p) ∧
    isAllowedByRobotsTxt none "HackathonSnifferBot" "/hackathons" = true := by
  have h1 : isAllowedByRobotsTxt (some robotsFixture) "HackathonSnifferBot" "/hackathons"
      = false := by decide
  have h2 : isRobotsTxtCompliant (some robotsFixture) paths = false := by
    unfold isRobotsTxtCompliant
    rw [List.all_eq_false]
    exact ⟨"/hackathons", hmem, by decide⟩
  refine ⟨h1, h2, ?_, fun _ _ _ => rfl, rfl⟩
  unfold adapterContentFetches
  rw [h2]
  simp

/-- C6 witness: the adapter declaring exactly `['/hackathons']` is
blocked and fetches nothing. -/
theorem C6_robots_disallow_aborts_witness :
    isAllowedByRobotsTxt (some robotsFixture) "HackathonSnifferBot" "/hackathons" = false ∧
    isRobotsTxtCompliant (some robotsFixture) ["/hackathons"] = false ∧
    adapterContentFetches (some robotsFixture) ["/hackathons"] ["/hackathons"] = [] ∧
    (∀ content ua p, isAllowedByRobotsTxt (some content) ua p =
      robotsDecision (robotsFinalState content ua) p) ∧
    isAllowedByRobotsTxt none "HackathonSnifferBot" "/hackathons" = true :=
  C6_robots_disallow_aborts ["/hackathons"] ["/hackathons"] (by decide)

/-! ## Scheduler run state (`IngestionScheduler`)

The scheduler owns one boolean `isRunning`.  The cron callback in
`start()` checks it and skips the cycle when a run is in flight;
`runIngestion()` throws `'Ingestion is already running'` when called
while in flight, otherwise sets the flag, runs, and clears it in
`finally`.  The single-threaded event loop is modelled as a step
function on the flag over an event trace: `tick` (a cron callback
firing), `manual` (a direct `runIngestion` call), `finish` (the
in-flight run's `finally`). -/

inductive SchedEvent
  | tick
  | manual
  | finish
deriving DecidableEq

inductive SchedOutcome
  | started
  | skippedTick
  | rejectedManual
  | finished
deriving DecidableEq

/-- One event against the `isRunning` flag, with what the source does:
a tick while running logs and skips; a manual call while running throws;
either trigger while idle starts the one run; `finally` clears the
flag. -/
def schedStep : Bool → SchedEvent → Bool × SchedOutcome
  | true, .tick => (true, .skippedTick)
  | false, .tick => (true, .started)
  | true, .manual => (true, .rejectedManual)
  | false, .manual => (true, .started)
  | _, .finish => (false, .finished)

/-- Run a whole event trace, collecting the outcomes. -/
def schedRun : Bool → List SchedEvent → Bool × List SchedOutcome
  | b, [] => (b, [])
  | b, e :: es =>
    let s := schedStep b e
    let r := schedRun s.1 es
    (r.1, s.2 :: r.2)

/-- Well-formedness of a trace: a `finish` event can only come from the
run that is actually in flight. -/
def traceOK : Bool → List SchedEvent → Bool
  | _, [] => true
  | b, e :: es =>
    match e with
    | .finish => b && traceOK (schedStep b .finish).1 es
    | .tick => traceOK (schedStep b .tick).1 es
    | .manual => traceOK (schedStep b .manual).1 es

def startedCount (outs : List SchedOutcome) : Nat :=
  outs.countP fun o => decide (o = .started)

def finishedCount (outs : List SchedOutcome) : Nat :=
  outs.countP fun o => decide (o = .finished)

theorem traceOK_take (events : List SchedEvent) :
    ∀ (b : Bool) (k : Nat), traceOK b events = true → traceOK b (events.take k) = true := by
  induction events with
  | nil => intro b k _; simp [traceOK]
  | cons e es ih =>
    intro b k hok
    cases k with
    | zero => simp [traceOK]
    | succ k =>
      rw [List.take_succ_cons]
      cases e with
      | finish =>
        simp only [traceOK, Bool.and_eq_true] at hok ⊢
        exact ⟨hok.1, ih _ k hok.2⟩
      | tick =>
        simp only [traceOK] at hok ⊢
        exact ih _ k hok
      | manual =>
        simp only [traceOK] at hok ⊢
        exact ih _ k hok

theorem schedRun_take (events : List SchedEvent) :
    ∀ (b : Bool) (k : Nat), ((schedRun b events).2).take k = (schedRun b (events.take k)).2 := by
  induction events with
  | nil => intro b k; simp [schedRun]
  | cons e es ih =>
    intro b k
    cases k with
    | zero => simp [schedRun]
    | succ k =>
      rw [List.take_succ_cons, schedRun]
      simp only [schedRun, List.take_succ_cons]
      rw [ih _ k]

/-- Balance equation along a well-formed trace: the initial flag plus
started runs equals finished runs plus the final flag. -/
theorem schedRun_balance (events : List SchedEvent) :
    ∀ b : Bool, traceOK b events = true →
      b.toNat + startedCount (schedRun b events).2 =
        finishedCount (schedRun b events).2 + ((schedRun b events).1).toNat := by
  induction events with
  | nil => intro b _; simp [schedRun, startedCount, finishedCount]
  | cons e es ih =>
    intro b hok
    cases e with
    | tick =>
      cases b with
      | true =>
        simp only [traceOK, schedStep] at hok
        have := ih true hok
        simp [schedRun, schedStep, startedCount, finishedCount, List.countP_cons] at this ⊢
        omega
      | false =>
        simp only [traceOK, schedStep] at hok
        have := ih true hok
        simp [schedRun, schedStep, startedCount, finishedCount, List.countP_cons] at this ⊢
        omega
    | manual =>
      cases b with
      | true =>
        simp only [traceOK, schedStep] at hok
        have := ih true hok
        simp [schedRun, schedStep, startedCount, finishedCount, List.countP_cons] at this ⊢
        omega
      | false =>
        simp only [traceOK, schedStep] at hok
        have := ih true hok
        simp [schedRun, schedStep, startedCount, finishedCount, List.countP_cons] at this ⊢
        omega
    | finish =>
      simp only [traceOK, Bool.and_eq_true, schedStep] at hok
      obtain ⟨hb, hok'⟩ := hok
      cases b with
      | true =>
        have := ih false hok'
        simp [schedRun, schedStep, startedCount, finishedCount, List.countP_cons] at this ⊢
        omega
      | false => simp at hb

/-- C7: the scheduler is a two-state machine with at most one in-flight
run.  A tick while running is skipped and a manual trigger while running
is rejected — in both cases the state is unchanged and nothing is
queued; a run starts only from idle; and along every well-formed event
trace, at every prefix the number of started runs exceeds the number of
finished runs by at most one (so two runs — and their store writes —
never overlap). -/
theorem C7_scheduler_single_inflight_run (events : List SchedEvent)
    (hok : traceOK false events = true) :
    schedStep true .tick = (true, .skippedTick) ∧
    schedStep true .manual = (true, .rejectedManual) ∧
    (∀ (b : Bool) (e : SchedEvent),
      (schedStep b e).2 = .started → b = false ∧ (schedStep b e).1 = true) ∧
    (∀ k : Nat,
      finishedCount (((schedRun false events).2).take k) ≤
        startedCount (((schedRun false events).2).take k) ∧
      startedCount (((schedRun false events).2).take k) ≤
        finishedCount (((schedRun false events).2).take k) + 1) := by
  refine ⟨rfl, rfl, ?_, ?_⟩
  · intro b e hstart
    cases b <;> cases e <;> simp_all [schedStep]
  · intro k
    have htk := traceOK_take events false k hok
    have hrt := schedRun_take events false k
    have hbal := schedRun_balance (events.take k) false htk
    rw [hrt]
    cases hfin : ((schedRun false (events.take k)).1) with
    | false =>
      rw [hfin] at hbal
      simp only [Bool.toNat_false] at hbal
      omega
    | true =>
      rw [hfin] at hbal
      simp only [Bool.toNat_false, Bool.toNat_true] at hbal
      omega

/-- C7 witness: a concrete well-formed trace — start, rejected manual
trigger, skipped tick, finish, then a fresh start — satisfies the
two-state machine properties. -/
theorem C7_scheduler_single_inflight_run_witness :
    schedStep true .tick = (true, .skippedTick) ∧
    schedStep true .manual = (true, .rejectedManual) ∧
    (∀ (b : Bool) (e : SchedEvent),
      (schedStep b e).2 = .started → b = false ∧ (schedStep b e).1 = true) ∧
    (∀ k : Nat,
      finishedCount (((schedRun false
          [.tick, .manual, .tick, .finish, .manual]).2).take k) ≤
        startedCount (((schedRun false
          [.tick, .manual, .tick, .finish, .manual]).2).take k) ∧
      startedCount (((schedRun false
          [.tick, .manual, .tick, .finish, .manual]).2).take k) ≤
        finishedCount (((schedRun false
          [.tick, .manual, .tick, .finish, .manual]).2).take k) + 1) :=
  C7_scheduler_single_inflight_run [.tick, .manual, .tick, .finish, .manual] (by decide)

/-! ## Date-range parsing (`DevpostAdapter.parseDateRange`,
`MLHAdapter.parseDateRange`)

Both adapters clean the text (`replace(/\s+/g, ' ').trim()`), extract a
default year with `/\b(20\d{2})\b/`, then try two regex patterns.
Devpost's pattern 1 is `(\w{3,})\s+(\d{1,2})\s*[-–]\s*(\d{1,2}),?\s*(\d{4})?`;
MLH's pattern 1 is the same but with no `\s*` around the dash:
`(\w{3,})\s+(\d{1,2})[-–](\d{1,2}),?\s*(\d{4})?`.  Pattern 2 (shared) is
`(\w{3,})\s+(\d{1,2}),?\s*(\d{4})?\s*[-–]\s*(\w{3,})\s+(\d{1,2}),?\s*(\d{4})?`.
The patterns are embedded as atom lists run by a leftmost, greedy,
backtracking matcher (`matchAtoms`/`searchPattern`), which on these atom
kinds coincides with the JS engine.  `new Date("<month> <day>, <year>")`
is modelled at date-component level by `jsMonthDate` (month-name prefix
of at least three letters, day in 1..31); an invalid date means
`toISOString` throws, which the surrounding catch turns into `null`
(`none`). -/

/-- `\w`: letters, digits, underscore. -/
def isWordChar (c : Char) : Bool := c.isAlphanum || c = '_'

/-- State machine for `replace(/\s+/g, ' ')`: each whitespace run becomes
one space (the flag records being inside a run). -/
def collapseWSAux : Bool → List Char → List Char
  | _, [] => []
  | inWS, c :: cs =>
    if jsIsWS c then
      if inWS then collapseWSAux true cs else ' ' :: collapseWSAux true cs
    else c :: collapseWSAux false cs

/-- `dateText.replace(/\s+/g, ' ').trim()`. -/
def cleanDateText (s : String) : String := jsTrim ⟨collapseWSAux false s.data⟩

/-- Search for the first `\b20\d{2}\b` match (the `prev` argument holds
the character before the current position for the left boundary). -/
def findYearAux (prev : Option Char) : List Char → Option (List Char)
  | c1 :: c2 :: c3 :: c4 :: rest =>
    if (match prev with | none => true | some p => !(isWordChar p)) &&
        (c1 = '2' : Bool) && (c2 = '0' : Bool) && c3.isDigit && c4.isDigit &&
        (match rest with | [] => true | r :: _ => !(isWordChar r)) then
      some [c1, c2, c3, c4]
    else findYearAux (some c1) (c2 :: c3 :: c4 :: rest)
  | _ => none

/-- `text.match(/\b(20\d{2})\b/)`, returning the matched year text. -/
def extractYear (s : String) : Option String :=
  (findYearAux none s.data).map fun cs => ⟨cs⟩

/-- The atoms of the two date regexes. -/
inductive RAtom
  | word (minLen : Nat)
  | wsPlus
  | wsStar
  | digits (lo hi : Nat)
  | optComma
  | dash
  | optYear

/-- Candidate consumption lengths for a greedy quantifier, longest
first. -/
def lensDesc (maxLen minLen : Nat) : List Nat :=
  if maxLen < minLen then [] else (List.range (maxLen - minLen + 1)).map fun k => maxLen - k

/-- Greedy backtracking matcher for an atom list against a prefix of the
input, returning the capture-group values in order (`word`, `digits` and
`optYear` capture; `optYear` captures `none` when the optional group is
skipped). -/
def matchAtoms : List RAtom → List Char → Option (List (Option String))
  | [], _ => some []
  | .word minLen :: rest, cs =>
    let w := cs.takeWhile isWordChar
    (lensDesc w.length minLen).findSome? fun n =>
      (matchAtoms rest (cs.drop n)).map fun caps => some (⟨cs.take n⟩ : String) :: caps
  | .wsPlus :: rest, cs =>
    let w := cs.takeWhile jsIsWS
    (lensDesc w.length 1).findSome? fun n => matchAtoms rest (cs.drop n)
  | .wsStar :: rest, cs =>
    let w := cs.takeWhile jsIsWS
    (lensDesc w.length 0).findSome? fun n => matchAtoms rest (cs.drop n)
  | .digits lo hi :: rest, cs =>
    let d := cs.takeWhile Char.isDigit
    (lensDesc (min hi d.length) lo).findSome? fun n =>
      (matchAtoms rest (cs.drop n)).map fun caps => some (⟨cs.take n⟩ : String) :: caps
  | .optComma :: rest, cs =>
    match cs with
    | ',' :: cs' =>
      match matchAtoms rest cs' with
      | some caps => some caps
      | none => matchAtoms rest cs
    | _ => matchAtoms rest cs
  | .dash :: rest, cs =>
    match cs with
    | c :: cs' => if c = '-' || c = '–' then matchAtoms rest cs' else none
    | [] => none
  | .optYear :: rest, cs =>
    let d := cs.takeWhile Char.isDigit
    if 4 ≤ d.length then
      match (matchAtoms rest (cs.drop 4)).map (fun caps =>
          some (⟨cs.take 4⟩ : String) :: caps) with
      | some caps => some caps
      | none => (matchAtoms rest cs).map fun caps => none :: caps
    else (matchAtoms rest cs).map fun caps => none :: caps

/-- Unanchored search: try the match at each start position, leftmost
first. -/
def searchPattern (atoms : List RAtom) : List Char → Option (List (Option String))
  | [] => matchAtoms atoms []
  | c :: cs =>
    match matchAtoms atoms (c :: cs) with
    | some caps => some caps
    | none => searchPattern atoms cs

/-- Devpost pattern 1: `(\w{3,})\s+(\d{1,2})\s*[-–]\s*(\d{1,2}),?\s*(\d{4})?`. -/
def devpostPattern1 : List RAtom :=
  [.word 3, .wsPlus, .digits 1 2, .wsStar, .dash, .wsStar, .digits 1 2,
   .optComma, .wsStar, .optYear]

/-- MLH pattern 1: `(\w{3,})\s+(\d{1,2})[-–](\d{1,2}),?\s*(\d{4})?` — note
the absence of `\s*` around the dash. -/
def mlhPattern1 : List RAtom :=
  [.word 3, .wsPlus, .digits 1 2, .dash, .digits 1 2, .optComma, .wsStar, .optYear]

/-- Pattern 2 of both adapters:
`(\w{3,})\s+(\d{1,2}),?\s*(\d{4})?\s*[-–]\s*(\w{3,})\s+(\d{1,2}),?\s*(\d{4})?`. -/
def dateRangePattern2 : List RAtom :=
  [.word 3, .wsPlus, .digits 1 2, .optComma, .wsStar, .optYear, .wsStar, .dash,
   .wsStar, .word 3, .wsPlus, .digits 1 2, .optComma, .wsStar, .optYear]

/-- A calendar date at component level (`toISOString`'s date part). -/
structure DateYMD where
  year : Nat
  month : Nat
  day : Nat
deriving DecidableEq

/-- Numeric value of a digit string. -/
def digitsToNat (s : String) : Nat :=
  s.data.foldl (fun n c => n * 10 + (c.toNat - '0'.toNat)) 0

def monthNames : List (String × Nat) :=
  [("january", 1), ("february", 2), ("march", 3), ("april", 4), ("may", 5),
   ("june", 6), ("july", 7), ("august", 8), ("september", 9), ("october", 10),
   ("november", 11), ("december", 12)]

/-- The month names `new Date("<month> <day>, <year>")` accepts:
case-insensitive prefixes of at least three letters of a month name. -/
def monthOfName (m : String) : Option Nat :=
  let lm := jsToLower m
  if lm.length < 3 then none
  else (monthNames.find? fun p => jsStartsWith p.1 lm).map fun p => p.2

/-- `new Date("<month> <day>, <year>")` at date-component level: an
unknown month name or a day outside 1..31 is an Invalid Date (its
`toISOString()` throws, caught as `null`). -/
def jsMonthDate (month : String) (day year : Nat) : Option DateYMD :=
  match monthOfName month with
  | none => none
  | some m => if 1 ≤ day ∧ day ≤ 31 then some ⟨year, m, day⟩ else none

/-- `DevpostAdapter.parseDateRange` (given the current year for the
no-year default): clean, extract default year, try pattern 1 then
pattern 2. -/
def devpostParseDateRange (currentYear : Nat) (dateText : String) :
    Option (DateYMD × DateYMD) :=
  let cleanedText := cleanDateText dateText
  let year := match extractYear cleanedText with
    | some y => digitsToNat y
    | none => currentYear
  match searchPattern devpostPattern1 cleanedText.data with
  | some [some month, some startDay, some endDay, matchedYear] =>
    let useYear := match matchedYear with
      | some y => digitsToNat y
      | none => year
    match jsMonthDate month (digitsToNat startDay) useYear,
        jsMonthDate month (digitsToNat endDay) useYear with
    | some sd, some ed => some (sd, ed)
    | _, _ => none
  | _ =>
    match searchPattern dateRangePattern2 cleanedText.data with
    | some [some sm, some sd, sy, some em, some ed, ey] =>
      let sYear := match sy with | some y => digitsToNat y | none => year
      let eYear := match ey with | some y => digitsToNat y | none => year
      match jsMonthDate sm (digitsToNat sd) sYear, jsMonthDate em (digitsToNat ed) eYear with
      | some a, some b => some (a, b)
      | _, _ => none
    | _ => none

/-- `MLHAdapter.parseDateRange`: identical except pattern 1 has no
whitespace allowed around the dash. -/
def mlhParseDateRange (currentYear : Nat) (dateText : String) :
    Option (DateYMD × DateYMD) :=
  let cleanedText := cleanDateText dateText
  let year := match extractYear cleanedText with
    | some y => digitsToNat y
    | none => currentYear
  match searchPattern mlhPattern1 cleanedText.data with
  | some [some month, some startDay, some endDay, matchedYear] =>
    let useYear := match matchedYear with
      | some y => digitsToNat y
      | none => year
    match jsMonthDate month (digitsToNat startDay) useYear,
        jsMonthDate month (digitsToNat endDay) useYear with
    | some sd, some ed => some (sd, ed)
    | _, _ => none
  | _ =>
    match searchPattern dateRangePattern2 cleanedText.data with
    | some [some sm, some sd, sy, some em, some ed, ey] =>
      let sYear := match sy with | some y => digitsToNat y | none => year
      let eYear := match ey with | some y => digitsToNat y | none => year
      match jsMonthDate sm (digitsToNat sd) sYear, jsMonthDate em (digitsToNat ed) eYear with
      | some a, some b => some (a, b)
      | _, _ => none
    | _ => none

/-- C8 counterexample: MLH's `parseDateRange` returns `null` on the
claim's text `"Oct 15 - 17, 2024"` — its pattern 1 admits no whitespace
around the dash and pattern 2 requires a month word after it — so the
claim is false for the MLH adapter. -/
theorem C8_mlh_spaced_dash_counterexample :
    mlhParseDateRange 2025 "Oct 15 - 17, 2024" = none := by
  decide

/-- C8 (amended): Devpost's `parseDateRange` maps `"Oct 15 - 17, 2024"`
to the date components 2024-10-15 / 2024-10-17; MLH's does so only for
the unspaced variant `"Oct 15-17, 2024"` and returns `null` on the
spaced text; and when the matched text has no year, both use the current
year for both endpoints. -/
theorem C8_parseDateRange_components : ∀ currentYear : Nat,
    devpostParseDateRange currentYear "Oct 15 - 17, 2024" =
      some (⟨2024, 10, 15⟩, ⟨2024, 10, 17⟩) ∧
    mlhParseDateRange currentYear "Oct 15-17, 2024" =
      some (⟨2024, 10, 15⟩, ⟨2024, 10, 17⟩) ∧
    mlhParseDateRange currentYear "Oct 15 - 17, 2024" = none ∧
    devpostParseDateRange currentYear "Oct 15 - 17" =
      some (⟨currentYear, 10, 15⟩, ⟨currentYear, 10, 17⟩) ∧
    mlhParseDateRange currentYear "Oct 15-17" =
      some (⟨currentYear, 10, 15⟩, ⟨currentYear, 10, 17⟩) := by
  intro currentYear
  exact ⟨rfl, rfl, rfl, rfl, rfl⟩

/-! ## Greedy duplicate grouping (`DeduplicationService.findDuplicates`)

The source iterates `i` over the input array, skips indices already in
the `processed` set, scans `j` from `i+1` collecting unprocessed records
scoring at or above the threshold into `duplicates` (marking each `j`
processed immediately), pushes a group `{original, duplicates}` when any
were found, and finally marks `i` processed.  The embedding works on
indices; `findDuplicates` maps them back to records as the source
returns them. -/

def nthRecord (hs : List NormalizedHackathon) (i : Nat) : NormalizedHackathon :=
  hs.getD i default

/-- One iteration of the inner `j` loop: state is `(processed, duplicates)`
as index lists. -/
def innerStep (pd : String → Int) (hs : List NormalizedHackathon) (thr : ℚ) (i : Nat)
    (st : List Nat × List Nat) (j : Nat) : List Nat × List Nat :=
  if j ∈ st.1 then st
  else if isDuplicate pd (nthRecord hs i) (nthRecord hs j) thr then
    (j :: st.1, st.2 ++ [j])
  else st

/-- One iteration of the outer `i` loop: state is
`(processed, duplicateGroups)`. -/
def outerStep (pd : String → Int) (hs : List NormalizedHackathon) (thr : ℚ)
    (st : List Nat × List (Nat × List Nat)) (i : Nat) : List Nat × List (Nat × List Nat) :=
  if i ∈ st.1 then st
  else
    let inner := (List.range' (i + 1) (hs.length - (i + 1))).foldl
      (innerStep pd hs thr i) (st.1, [])
    let groups := if inner.2 = [] then st.2 else st.2 ++ [(i, inner.2)]
    (i :: inner.1, groups)

/-- `DeduplicationService.findDuplicates` on indices: the list of
`(original index, duplicate indices)` groups. -/
def findDuplicatesIdx (pd : String → Int) (hs : List NormalizedHackathon)
    (thr : ℚ := 0.85) : List (Nat × List Nat) :=
  ((List.range hs.length).foldl (outerStep pd hs thr) ([], [])).2

/-- `DeduplicationService.findDuplicates`, returning the records as the
source does. -/
def findDuplicates (pd : String → Int) (hs : List NormalizedHackathon)
    (thr : ℚ := 0.85) : List (NormalizedHackathon × List NormalizedHackathon) :=
  (findDuplicatesIdx pd hs thr).map fun g => (nthRecord hs g.1, g.2.map (nthRecord hs))

/-- The indices assigned as duplicates across all groups. -/
def asg (G : List (Nat × List Nat)) : List Nat := (G.map Prod.snd).join

theorem asg_append (A B : List (Nat × List Nat)) : asg (A ++ B) = asg A ++ asg B := by
  simp [asg]

theorem asg_single (i : Nat) (D : List Nat) : asg [(i, D)] = D := by
  simp [asg]

theorem isDuplicate_comm (pd : String → Int) (h1 h2 : NormalizedHackathon) (thr : ℚ) :
    isDuplicate pd h1 h2 thr = isDuplicate pd h2 h1 thr := by
  unfold isDuplicate
  rw [calculateSimilarity_comm]

/-- Behaviour of the inner `j` scan: starting from processed set `P` and
collected list `D0`, it extends `D0` by some fresh indices `Dnew`, each
taken from the scanned range, previously unprocessed, and a duplicate of
record `i`; the processed set grows by exactly `Dnew`; and every scanned
index left unprocessed is not a duplicate of record `i`. -/
theorem innerScan_spec (pd : String → Int) (hs : List NormalizedHackathon) (thr : ℚ)
    (i : Nat) :
    ∀ (js : List Nat) (P D0 : List Nat),
      ∃ Dnew,
        (js.foldl (innerStep pd hs thr i) (P, D0)).2 = D0 ++ Dnew ∧
        (∀ x, x ∈ (js.foldl (innerStep pd hs thr i) (P, D0)).1 ↔ x ∈ P ∨ x ∈ Dnew) ∧
        Dnew.Nodup ∧
        (∀ j ∈ Dnew, j ∈ js ∧ j ∉ P ∧
          isDuplicate pd (nthRecord hs i) (nthRecord hs j) thr = true) ∧
        (∀ j ∈ js, j ∉ (js.foldl (innerStep pd hs thr i) (P, D0)).1 →
          isDuplicate pd (nthRecord hs i) (nthRecord hs j) thr = false) := by
  intro js
  induction js with
  | nil =>
    intro P D0
    exact ⟨[], by simp, by simp, List.nodup_nil, by simp, by simp⟩
  | cons j js ih =>
    intro P D0
    rw [List.foldl_cons]
    by_cases hjP : j ∈ P
    · rw [show innerStep pd hs thr i (P, D0) j = (P, D0) from by simp [innerStep, hjP]]
      obtain ⟨Dnew, h1, h2, h3, h4, h5⟩ := ih P D0
      refine ⟨Dnew, h1, h2, h3, ?_, ?_⟩
      · intro x hx
        obtain ⟨hj1, hj2, hj3⟩ := h4 x hx
        exact ⟨List.mem_cons_of_mem _ hj1, hj2, hj3⟩
      · intro x hx hnp
        cases hx with
        | head =>
          exfalso
          exact hnp ((h2 j).mpr (Or.inl hjP))
        | tail _ hmem => exact h5 x hmem hnp
    · by_cases hdup : isDuplicate pd (nthRecord hs i) (nthRecord hs j) thr
      · rw [show innerStep pd hs thr i (P, D0) j = (j :: P, D0 ++ [j]) from by
          simp [innerStep, hjP, hdup]]
        obtain ⟨Dnew, h1, h2, h3, h4, h5⟩ := ih (j :: P) (D0 ++ [j])
        have hjD : j ∉ Dnew := by
          intro hj
          exact (h4 j hj).2.1 (List.mem_cons_self _ _)
        refine ⟨j :: Dnew, ?_, ?_, ?_, ?_, ?_⟩
        · rw [h1, List.append_assoc]
          rfl
        · intro x
          rw [h2 x, List.mem_cons, List.mem_cons]
          tauto
        · exact List.nodup_cons.mpr ⟨hjD, h3⟩
        · intro x hx
          cases hx with
          | head => exact ⟨List.mem_cons_self _ _, hjP, hdup⟩
          | tail _ hmem =>
            obtain ⟨hj1, hj2, hj3⟩ := h4 x hmem
            have : x ∉ P := fun hxp => hj2 (List.mem_cons_of_mem _ hxp)
            exact ⟨List.mem_cons_of_mem _ hj1, this, hj3⟩
        · intro x hx hnp
          cases hx with
          | head =>
            exfalso
            exact hnp ((h2 j).mpr (Or.inl (List.mem_cons_self _ _)))
          | tail _ hmem => exact h5 x hmem hnp
      · rw [show innerStep pd hs thr i (P, D0) j = (P, D0) from by
          simp [innerStep, hjP, hdup]]
        obtain ⟨Dnew, h1, h2, h3, h4, h5⟩ := ih P D0
        refine ⟨Dnew, h1, h2, h3, ?_, ?_⟩
        · intro x hx
          obtain ⟨hj1, hj2, hj3⟩ := h4 x hx
          exact ⟨List.mem_cons_of_mem _ hj1, hj2, hj3⟩
        · intro x hx hnp
          cases hx with
          | head => simpa using hdup
          | tail _ hmem => exact h5 x hmem hnp

/-- Invariant of the outer loop after the first `k` indices: the
processed set is exactly `{0..k-1}` plus the assigned duplicates; every
group is non-empty with primary before its in-range duplicates, all
scoring as duplicates of the primary; primaries and assigned indices are
all distinct; and any two unassigned indices with the first below `k`
are not duplicates of each other. -/
def greedyInv (pd : String → Int) (hs : List NormalizedHackathon) (thr : ℚ) (k : Nat)
    (st : List Nat × List (Nat × List Nat)) : Prop :=
  (∀ x, x ∈ st.1 ↔ (x < k ∨ x ∈ asg st.2)) ∧
  (∀ g ∈ st.2, g.2 ≠ [] ∧ g.1 < k ∧ ∀ j ∈ g.2, g.1 < j ∧ j < hs.length ∧
    isDuplicate pd (nthRecord hs g.1) (nthRecord hs j) thr = true) ∧
  (st.2.map Prod.fst).Nodup ∧
  (asg st.2).Nodup ∧
  (∀ x ∈ st.2.map Prod.fst, x ∉ asg st.2) ∧
  (∀ i1 i2, i1 < k → i1 < i2 → i2 < hs.length → i1 ∉ asg st.2 → i2 ∉ asg st.2 →
    isDuplicate pd (nthRecord hs i1) (nthRecord hs i2) thr = false)

theorem greedyInv_step (pd : String → Int) (hs : List NormalizedHackathon) (thr : ℚ)
    (k : Nat) (st : List Nat × List (Nat × List Nat)) (h : greedyInv pd hs thr k st) :
    greedyInv pd hs thr (k + 1) (outerStep pd hs thr st k) := by
  obtain ⟨hmem, hgr, hndF, hndA, hdisj, hsurv⟩ := h
  unfold outerStep
  by_cases hk : k ∈ st.1
  · simp only [if_pos hk]
    have hkasg : k ∈ asg st.2 := by
      rcases (hmem k).mp hk with hlt | hin
      · omega
      · exact hin
    refine ⟨?_, ?_, hndF, hndA, hdisj, ?_⟩
    · intro x
      rw [hmem x]
      constructor
      · rintro (hx | hx)
        · exact Or.inl (by omega)
        · exact Or.inr hx
      · rintro (hx | hx)
        · by_cases hxk : x = k
          · exact Or.inr (hxk ▸ hkasg)
          · exact Or.inl (by omega)
        · exact Or.inr hx
    · intro g hg
      obtain ⟨h1, h2, h3⟩ := hgr g hg
      exact ⟨h1, by omega, h3⟩
    · intro i1 i2 h1 h2 h3 h4 h5
      by_cases hi1 : i1 = k
      · exact absurd (hi1 ▸ hkasg) h4
      · exact hsurv i1 i2 (by omega) h2 h3 h4 h5
  · simp only [if_neg hk]
    obtain ⟨Dnew, hD, hPmem, hDnd, hDprop, hDneg⟩ :=
      innerScan_spec pd hs thr k (List.range' (k + 1) (hs.length - (k + 1))) st.1 []
    rw [List.nil_append] at hD
    have hjs_iff : ∀ j, j ∈ List.range' (k + 1) (hs.length - (k + 1)) ↔
        k < j ∧ j < hs.length := by
      intro j
      rw [List.mem_range'_1]
      omega
    have hkD : k ∉ Dnew := by
      intro hkd
      have := (hjs_iff k).mp (hDprop k hkd).1
      omega
    have hasg_subP : ∀ x, x ∈ asg st.2 → x ∈ st.1 := fun x hx => (hmem x).mpr (Or.inr hx)
    rw [hD]
    by_cases hDnil : Dnew = []
    · subst hDnil
      rw [if_pos rfl]
      refine ⟨?_, ?_, hndF, hndA, hdisj, ?_⟩
      · intro x
        rw [List.mem_cons, hPmem x, hmem x]
        constructor
        · rintro (hx | (hx | hx) | hx)
          · exact Or.inl (by omega)
          · exact Or.inl (by omega)
          · exact Or.inr hx
          · cases hx
        · rintro (hx | hx)
          · by_cases hxk : x = k
            · exact Or.inl hxk
            · exact Or.inr (Or.inl (Or.inl (by omega)))
          · exact Or.inr (Or.inl (Or.inr hx))
      · intro g hg
        obtain ⟨h1, h2, h3⟩ := hgr g hg
        exact ⟨h1, by omega, h3⟩
      · intro i1 i2 h1 h2 h3 h4 h5
        by_cases hi1 : i1 = k
        · subst hi1
          refine hDneg i2 ((hjs_iff i2).mpr ⟨h2, h3⟩) ?_
          intro hin
          rcases (hPmem i2).mp hin with hin' | hin'
          · rcases (hmem i2).mp hin' with hlt | hasgm
            · omega
            · exact h5 hasgm
          · cases hin'
        · exact hsurv i1 i2 (by omega) h2 h3 h4 h5
    · rw [if_neg hDnil]
      have hasg' : asg (st.2 ++ [(k, Dnew)]) = asg st.2 ++ Dnew := by
        rw [asg_append, asg_single]
      have hfst' : (st.2 ++ [(k, Dnew)]).map Prod.fst = st.2.map Prod.fst ++ [k] := by
        simp
      have hfst_lt : ∀ x ∈ st.2.map Prod.fst, x < k := by
        intro x hx
        obtain ⟨g, hg, hgx⟩ := List.mem_map.mp hx
        exact hgx ▸ (hgr g hg).2.1
      have hDnew_asg_disj : ∀ x ∈ asg st.2, x ∉ Dnew := by
        intro x hx hxD
        exact (hDprop x hxD).2.1 (hasg_subP x hx)
      refine ⟨?_, ?_, ?_, ?_, ?_, ?_⟩
      · intro x
        rw [List.mem_cons, hPmem x, hmem x, hasg', List.mem_append]
        constructor
        · rintro (hx | (hx | hx) | hx)
          · exact Or.inl (by omega)
          · exact Or.inl (by omega)
          · exact Or.inr (Or.inl hx)
          · exact Or.inr (Or.inr hx)
        · rintro (hx | hx | hx)
          · by_cases hxk : x = k
            · exact Or.inl hxk
            · exact Or.inr (Or.inl (Or.inl (by omega)))
          · exact Or.inr (Or.inl (Or.inr hx))
          · exact Or.inr (Or.inr hx)
      · intro g hg
        rcases List.mem_append.mp hg with hg' | hg'
        · obtain ⟨h1, h2, h3⟩ := hgr g hg'
          exact ⟨h1, by omega, h3⟩
        · have hgeq : g = (k, Dnew) := by simpa using hg'
          subst hgeq
          refine ⟨hDnil, by omega, ?_⟩
          intro j hj
          obtain ⟨hj1, hj2, hj3⟩ := hDprop j hj
          have := (hjs_iff j).mp hj1
          exact ⟨this.1, this.2, hj3⟩
      · rw [hfst']
        rw [List.nodup_append]
        refine ⟨hndF, List.nodup_singleton k, ?_⟩
        intro x hx
        have := hfst_lt x hx
        simp only [List.mem_singleton]
        omega
      · rw [hasg']
        rw [List.nodup_append]
        exact ⟨hndA, hDnd, hDnew_asg_disj⟩
      · intro x hx
        rw [hfst'] at hx
        rw [hasg', List.mem_append]
        rcases List.mem_append.mp hx with hx' | hx'
        · rintro (hin | hin)
          · exact hdisj x hx' hin
          · have := hfst_lt x hx'
            have := (hjs_iff x).mp (hDprop x hin).1
            omega
        · have hxk : x = k := by simpa using hx'
          subst hxk
          rintro (hin | hin)
          · exact hk (hasg_subP x hin)
          · exact hkD hin
      · intro i1 i2 h1 h2 h3 h4 h5
        rw [hasg', List.mem_append] at h4 h5
        push_neg at h4 h5
        by_cases hi1 : i1 = k
        · subst hi1
          refine hDneg i2 ((hjs_iff i2).mpr ⟨h2, h3⟩) ?_
          intro hin
          rcases (hPmem i2).mp hin with hin' | hin'
          · rcases (hmem i2).mp hin' with hlt | hasgm
            · omega
            · exact h5.1 hasgm
          · exact h5.2 hin'
        · exact hsurv i1 i2 (by omega) h2 h3 h4.1 h5.1

theorem greedyInv_fold (pd : String → Int) (hs : List NormalizedHackathon) (thr : ℚ) :
    ∀ k, greedyInv pd hs thr k ((List.range k).foldl (outerStep pd hs thr) ([], [])) := by
  intro k
  induction k with
  | zero =>
    refine ⟨?_, ?_, ?_, ?_, ?_, ?_⟩ <;> simp [asg]
  | succ k ih =>
    rw [List.range_succ, List.foldl_append, List.foldl_cons, List.foldl_nil]
    exact greedyInv_step pd hs thr k _ ih

/-- C3: `findDuplicates` is a single greedy pass.  Each returned group
has a non-empty duplicate list whose members all lie strictly after the
primary, are in range, and score at or above the threshold against the
primary; primaries and assigned duplicates are pairwise distinct, so
every record belongs to at most one group; and any two records left
unassigned by the pass — the survivors, the primaries among them — are
not duplicates of each other in either direction. -/
theorem C3_findDuplicates_single_pass (pd : String → Int) (hs : List NormalizedHackathon)
    (thr : ℚ) :
    (findDuplicates pd hs thr = (findDuplicatesIdx pd hs thr).map fun g =>
      (nthRecord hs g.1, g.2.map (nthRecord hs))) ∧
    (∀ g ∈ findDuplicatesIdx pd hs thr, g.2 ≠ [] ∧ ∀ j ∈ g.2, g.1 < j ∧ j < hs.length ∧
      isDuplicate pd (nthRecord hs g.1) (nthRecord hs j) thr = true) ∧
    (((findDuplicatesIdx pd hs thr).map Prod.fst) ++ asg (findDuplicatesIdx pd hs thr)).Nodup ∧
    (∀ i1 i2, i1 < i2 → i2 < hs.length →
      i1 ∉ asg (findDuplicatesIdx pd hs thr) → i2 ∉ asg (findDuplicatesIdx pd hs thr) →
      isDuplicate pd (nthRecord hs i1) (nthRecord hs i2) thr = false ∧
      isDuplicate pd (nthRecord hs i2) (nthRecord hs i1) thr = false) := by
  obtain ⟨hmem, hgr, hndF, hndA, hdisj, hsurv⟩ := greedyInv_fold pd hs thr hs.length
  refine ⟨rfl, ?_, ?_, ?_⟩
  · intro g hg
    obtain ⟨h1, _, h3⟩ := hgr g hg
    exact ⟨h1, h3⟩
  · rw [List.nodup_append]
    exact ⟨hndF, hndA, hdisj⟩
  · intro i1 i2 h12 h2len h1a h2a
    have hfwd := hsurv i1 i2 (by omega) h12 h2len h1a h2a
    refine ⟨hfwd, ?_⟩
    rw [isDuplicate_comm]
    exact hfwd

/-- C3 witness: the theorem applied to a singleton input (which forms no
groups, so the map identity and distinctness are concrete). -/
theorem C3_findDuplicates_single_pass_witness :
    (findDuplicates (fun _ => 0) [default] 0.85 =
      (findDuplicatesIdx (fun _ => 0) [default] 0.85).map fun g =>
        (nthRecord [default] g.1, g.2.map (nthRecord [default]))) ∧
    (((findDuplicatesIdx (fun _ => 0) [default] 0.85).map Prod.fst) ++
      asg (findDuplicatesIdx (fun _ => 0) [default] 0.85)).Nodup :=
  ⟨(C3_findDuplicates_single_pass (fun _ => 0) [default] 0.85).1,
    (C3_findDuplicates_single_pass (fun _ => 0) [default] 0.85).2.2.1⟩
